import Mathlib

/-!
# lufact: array utilities, order-statistic selection and the solve driver

A shallow embedding of `gp.go` (package `lufact`) and theorems about it.

Conventions of the embedding

* A Go slice is a list.  The entries of the `[]float64` slice of `dordstat`, the one
  function that orders `float64` values, are `F64`: a number or NaN, with Go's
  comparisons (`F64.gt`, `F64.lt`), which are false as soon as one side is NaN.
  In the functions that only copy entries, test them with `!=` and store the literals
  `0.0` and `1.0` (`rcopy`, `rfill`, `requiv`), and in `lusolv`, a `float64` entry is
  represented by an `Int`.
* Go `int` indices and counters are `Int`.  The only place where 64-bit
  wraparound matters is the generator state `rnd`, which is wrapped
  explicitly by `wrap64`; Go's `%` is the truncating remainder `Int.tmod`.
* A run either returns (`Run.ok`), panics on an index out of range
  (`Run.panic`), or exhausts the step budget of the embedding (`Run.fuel`).
* `goto` loops take a step budget; counted `for` loops are total.
-/

namespace Lufact

/-! ## Outcome of a run -/

/-- Outcome of running a piece of the embedded program. -/
inductive Run (α : Type) where
  | ok (a : α)
  | panic
  | fuel
  deriving DecidableEq

namespace Run

/-- Sequencing: a panic or an exhausted budget stops the run. -/
def bind {α β : Type} : Run α → (α → Run β) → Run β
  | ok a, f => f a
  | panic, _ => panic
  | fuel, _ => fuel

instance : Monad Run where
  pure := ok
  bind := bind

end Run

/-! ## Slices -/

/-- Read `A[i]`; an index outside `0 ≤ i < len(A)` panics. -/
def rd (A : List Int) (i : Int) : Run Int :=
  if 0 ≤ i ∧ i < A.length then .ok (A.getD i.toNat 0) else .panic

/-- Write `A[i] = v`; an index outside `0 ≤ i < len(A)` panics. -/
def wr (A : List Int) (i : Int) (v : Int) : Run (List Int) :=
  if 0 ≤ i ∧ i < A.length then .ok (A.set i.toNat v) else .panic

/-- Counted loop `for i := lo; i <= hi; i++ { body }`, given as the start index
and the number of iterations `max 0 (hi - lo + 1)`. -/
def forUp {σ : Type} (body : Int → σ → Run σ) : Nat → Int → σ → Run σ
  | 0, _, s => .ok s
  | c + 1, i, s => body i s >>= forUp body c (i + 1)

/-- Counted loop `for i := hi; i >= lo; i-- { body }`, given as the start index
and the number of iterations `max 0 (hi - lo + 1)`. -/
def forDown {σ : Type} (body : Int → σ → Run σ) : Nat → Int → σ → Run σ
  | 0, _, s => .ok s
  | c + 1, i, s => body i s >>= forDown body c (i - 1)

/-! ## cntrow -/

/-- The inner loop of `cntrow`: `for j := maxk + 1; j <= k; j++ { rowcnt[j] = 0 }`. -/
def cntrowClear (maxk k : Int) (rowcnt : List Int) : Run (List Int) :=
  forUp (fun j rc => wr rc j 0) (k - maxk).toNat (maxk + 1) rowcnt

/-- One iteration of the outer loop of `cntrow`; the state is `(maxk, rowcnt)`. -/
def cntrowBody (arow : List Int) (i : Int) (s : Int × List Int) : Run (Int × List Int) := do
  let k ← rd arow i
  let s ← if k > s.1 then do
      let rc ← cntrowClear s.1 k s.2
      pure (k, rc)
    else pure s
  let c ← rd s.2 k
  let rc ← wr s.2 k (c + 1)
  pure (s.1, rc)

/-- Embedding of `cntrow(arow, lasta, rowcnt)`; returns the final `rowcnt`. -/
def cntrow (arow : List Int) (lasta : Int) (rowcnt : List Int) : Run (List Int) := do
  let s ← forUp (cntrowBody arow) lasta.toNat 1 (0, rowcnt)
  pure s.2

/-! ## rfill, ifill -/

/-- Embedding of `rfill(a, la, rval)`; returns the final `a`. -/
def rfill (a : List Int) (la : Int) (rval : Int) : Run (List Int) :=
  forUp (fun i a => wr a i rval) la.toNat 1 a

/-- Embedding of `ifill(a, la, ival)`; returns the final `a`. -/
def ifill (a : List Int) (la : Int) (ival : Int) : Run (List Int) :=
  forUp (fun i a => wr a i ival) la.toNat 1 a

/-! ## rcopy, icopy, requiv on windows of one buffer -/

/-- A Go slice seen as a window of a backing buffer: the entries
`M[off], …, M[off + len - 1]`. -/
structure Slice where
  off : Nat
  len : Nat
  deriving DecidableEq

/-- Read `s[i]` in buffer `M`. -/
def srd (M : List Int) (s : Slice) (i : Int) : Run Int :=
  if 0 ≤ i ∧ i < s.len then rd M (s.off + i) else .panic

/-- Write `s[i] = v` in buffer `M`. -/
def swr (M : List Int) (s : Slice) (i : Int) (v : Int) : Run (List Int) :=
  if 0 ≤ i ∧ i < s.len then wr M (s.off + i) v else .panic

/-- The loop body `b[i] = a[i]` shared by `rcopy` and `icopy`. -/
def copyStep (a b : Slice) (i : Int) (M : List Int) : Run (List Int) := do
  let v ← srd M a i
  swr M b i v

/-- Embedding of `rcopy(a, b, la, mode)` on the buffer `M` that backs both
slices; returns the buffer after the call. -/
def rcopy (M : List Int) (a b : Slice) (la : Int) (mode : Bool) : Run (List Int) :=
  if mode then
    -- l200: for i := la; i >= 1; i--
    forDown (copyStep a b) la.toNat la M
  else
    -- for i := 1; i <= la; i++
    forUp (copyStep a b) la.toNat 1 M

/-- Embedding of `icopy(a, b, la, mode)` on the buffer `M` that backs both
slices; returns the buffer after the call. -/
def icopy (M : List Int) (a b : Slice) (la : Int) (mode : Bool) : Run (List Int) :=
  if !mode then
    forUp (copyStep a b) la.toNat 1 M
  else
    forDown (copyStep a b) la.toNat la M

/-- Embedding of `requiv(a, b)` on the buffer `M` that backs both slices;
returns the result and the buffer after the call. -/
def requiv (M : List Int) (a b : Slice) : Run (Bool × List Int) := do
  let temp ← srd M a 1
  let M ← swr M a 1 0
  let b1 ← srd M b 1
  if b1 != 0 then
    -- goto l100
    let M ← swr M a 1 temp
    pure (false, M)
  else
    let M ← swr M a 1 1
    let b1 ← srd M b 1
    if b1 != 1 then
      -- goto l100
      let M ← swr M a 1 temp
      pure (false, M)
    else
      let M ← swr M a 1 temp
      pure (true, M)

/-! ## cntrow on windows of one buffer -/

/-- The inner loop of `cntrow` with `rowcnt` a window of the buffer `M`. -/
def cntrowClearM (rowcnt : Slice) (maxk k : Int) (M : List Int) : Run (List Int) :=
  forUp (fun j M => swr M rowcnt j 0) (k - maxk).toNat (maxk + 1) M

/-- One iteration of the outer loop of `cntrow` with `arow` and `rowcnt` windows of one
buffer; the state is `(maxk, M)`. -/
def cntrowBodyM (arow rowcnt : Slice) (i : Int) (s : Int × List Int) :
    Run (Int × List Int) := do
  let k ← srd s.2 arow i
  let s ← if k > s.1 then do
      let M ← cntrowClearM rowcnt s.1 k s.2
      pure (k, M)
    else pure s
  let c ← srd s.2 rowcnt k
  let M ← swr s.2 rowcnt k (c + 1)
  pure (s.1, M)

/-- Embedding of `cntrow(arow, lasta, rowcnt)` on the buffer `M` that backs both slices;
returns the buffer after the call. -/
def cntrowM (M : List Int) (arow rowcnt : Slice) (lasta : Int) : Run (List Int) := do
  let s ← forUp (cntrowBodyM arow rowcnt) lasta.toNat 1 (0, M)
  pure s.2

/-! ## float64 entries of dordstat -/

/-- A `float64` value as `dordstat` sees it: NaN, or a number.  A number is named by
its place `v` in the order of the non-NaN values, so two numbers compare as their
places do (values that compare equal, such as `-0.0` and `0.0`, share a place). -/
inductive F64 where
  | num (v : Int)
  | nan
  deriving DecidableEq

namespace F64

instance (n : Nat) : OfNat F64 n := ⟨num n⟩

/-- Go's `a > b` on `float64`: false as soon as one side is NaN. -/
def gt : F64 → F64 → Bool
  | num a, num b => decide (a > b)
  | _, _ => false

/-- Go's `a < b` on `float64`: false as soon as one side is NaN. -/
def lt : F64 → F64 → Bool
  | num a, num b => decide (a < b)
  | _, _ => false

/-- The comparison `a <= b` on `float64`: false as soon as one side is NaN. -/
def le : F64 → F64 → Bool
  | num a, num b => decide (a ≤ b)
  | _, _ => false

/-- The place of a number in the order (`0` for NaN). -/
def val : F64 → Int
  | num v => v
  | nan => 0

end F64

/-- Read `A[i]` of a `[]float64`; an index outside `0 ≤ i < len(A)` panics. -/
def frd (A : List F64) (i : Int) : Run F64 :=
  if 0 ≤ i ∧ i < A.length then .ok (A.getD i.toNat F64.nan) else .panic

/-- Write `A[i] = v` of a `[]float64`; an index outside `0 ≤ i < len(A)` panics. -/
def fwr (A : List F64) (i : Int) (v : F64) : Run (List F64) :=
  if 0 ≤ i ∧ i < A.length then .ok (A.set i.toNat v) else .panic

/-! ## dordstat -/

/-- Two's-complement wraparound of a 64-bit Go `int`. -/
def wrap64 (x : Int) : Int := (x + 2 ^ 63) % 2 ^ 64 - 2 ^ 63

/-- The assignment `rnd = 1366*rnd + 150889%714025`; `%` binds tighter than `+`
in Go as it does here. -/
def nextRnd (rnd : Int) : Int := wrap64 (1366 * rnd + 150889 % 714025)

/-- The pivot index `q := p + (rnd % (r - p + 1))`, with the truncating remainder. -/
def pivotIndex (rnd p r : Int) : Int := p + Int.tmod rnd (r - p + 1)

/-- Everything `dordstat` can read or write: the slice `A`, the two outputs and
the package-level generator state `rnd`. -/
structure Mem where
  A : List F64
  kth : F64
  info : Int
  rnd : Int
  deriving DecidableEq

/-- Label `l210`: `j = j - 1; if A[j] > x { goto l210 }`. -/
def l210 (A : List F64) (x : F64) : Nat → Int → Run Int
  | 0, _ => .fuel
  | f + 1, j => do
    let j := j - 1
    let aj ← frd A j
    if F64.gt aj x then l210 A x f j else pure j

/-- Label `l220`: `i = i + 1; if A[i] < x { goto l220 }`. -/
def l220 (A : List F64) (x : F64) : Nat → Int → Run Int
  | 0, _ => .fuel
  | f + 1, i => do
    let i := i + 1
    let ai ← frd A i
    if F64.lt ai x then l220 A x f i else pure i

/-- The exchange `tmp := A[i]; A[i] = A[j]; A[j] = tmp`. -/
def exchange (A : List F64) (i j : Int) : Run (List F64) := do
  let tmp ← frd A i
  let aj ← frd A j
  let A ← fwr A i aj
  fwr A j tmp

/-- Label `l200`: one partition pass from scanning indices `i`, `j` up to the
crossing test; returns the slice and the final `j`.  `g` is the budget of each
inner scan. -/
def l200 (g : Nat) (x : F64) : Nat → List F64 → Int → Int → Run (List F64 × Int)
  | 0, _, _, _ => .fuel
  | f + 1, A, i, j => do
    let j ← l210 A x g j
    let i ← l220 A x g i
    if i < j then
      let A ← exchange A i j
      l200 g x f A i j
    else pure (A, j)

/-- The randomisation block guarded by `r-p >= 8`. -/
def randomize (p r : Int) (A : List F64) (rnd : Int) : Run (List F64 × Int) :=
  if r - p ≥ 8 then do
    let rnd := nextRnd rnd
    let q := pivotIndex rnd p r
    let A ← exchange A p q
    pure (A, rnd)
  else pure (A, rnd)

/-- One trip from label `l100` (with `p ≠ r`) back to `goto l100`: returns the
narrowed range and the updated slice and generator state. -/
def narrow (g : Nat) (k p r : Int) (A : List F64) (rnd : Int) :
    Run (Int × Int × List F64 × Int) := do
  let (A, rnd) ← randomize p r A rnd
  let x ← frd A p
  let i := p - 1
  let j := r + 1
  let (A, j) ← l200 g x g A i j
  if j < k then pure (j + 1, r, A, rnd) else pure (p, j, A, rnd)

/-- Label `l100`: the selection loop over the range `[p, r]`, ending at `l900`. -/
def l100 (g : Nat) (k : Int) : Nat → Int → Int → Mem → Run Mem
  | 0, _, _, _ => .fuel
  | f + 1, p, r, m =>
    if p == r then do
      -- l900
      let v ← frd m.A p
      pure { m with kth := v, info := 0 }
    else do
      let (p, r, A, rnd) ← narrow g k p r m.A m.rnd
      l100 g k f p r { m with A := A, rnd := rnd }

/-- Embedding of `dordstat(n, k, A, kth, info)` together with the package
variable `rnd`; `fuel` bounds the trips through each `goto` loop. -/
def dordstat (fuel : Nat) (n k : Int) (m : Mem) : Run Mem :=
  if k < 0 ∨ k > n then .ok { m with info := -1 }
  else l100 fuel k fuel 1 n m

/-! ## The partition pass with every access confined to a range -/

/-- Read `A[i]`, where an index outside `lo..hi` counts as a fault as well. -/
def rdIn (lo hi : Int) (A : List F64) (i : Int) : Run F64 :=
  if lo ≤ i ∧ i ≤ hi then frd A i else .panic

/-- Write `A[i] = v`, where an index outside `lo..hi` counts as a fault as well. -/
def wrIn (lo hi : Int) (A : List F64) (i : Int) (v : F64) : Run (List F64) :=
  if lo ≤ i ∧ i ≤ hi then fwr A i v else .panic

/-- Label `l210` with accesses confined to `lo..hi`. -/
def l210In (lo hi : Int) (A : List F64) (x : F64) : Nat → Int → Run Int
  | 0, _ => .fuel
  | f + 1, j => do
    let j := j - 1
    let aj ← rdIn lo hi A j
    if F64.gt aj x then l210In lo hi A x f j else pure j

/-- Label `l220` with accesses confined to `lo..hi`. -/
def l220In (lo hi : Int) (A : List F64) (x : F64) : Nat → Int → Run Int
  | 0, _ => .fuel
  | f + 1, i => do
    let i := i + 1
    let ai ← rdIn lo hi A i
    if F64.lt ai x then l220In lo hi A x f i else pure i

/-- The exchange of `A[i]` and `A[j]` with accesses confined to `lo..hi`. -/
def exchangeIn (lo hi : Int) (A : List F64) (i j : Int) : Run (List F64) := do
  let tmp ← rdIn lo hi A i
  let aj ← rdIn lo hi A j
  let A ← wrIn lo hi A i aj
  wrIn lo hi A j tmp

/-- Label `l200` with accesses confined to `lo..hi`. -/
def l200In (lo hi : Int) (g : Nat) (x : F64) :
    Nat → List F64 → Int → Int → Run (List F64 × Int)
  | 0, _, _, _ => .fuel
  | f + 1, A, i, j => do
    let j ← l210In lo hi A x g j
    let i ← l220In lo hi A x g i
    if i < j then
      let A ← exchangeIn lo hi A i j
      l200In lo hi g x f A i j
    else pure (A, j)

/-! ## lusolv -/

/-- The slices handed to the two triangular stages. -/
structure SolveMem where
  lu : List Int
  lurow : List Int
  lcolst : List Int
  ucolst : List Int
  rperm : List Int
  cperm : List Int
  x : List Int
  rwork : List Int
  deriving DecidableEq

/-- A triangular stage (`lsolve` or `usolve`), whose body is not part of the
fragment: an arbitrary operation on the slices it is handed, returning an
optional error. -/
abbrev Stage (ε : Type) := Int → SolveMem → Option ε × SolveMem

/-- Embedding of `lusolv`; `m.rwork` on entry is ignored, since the function
allocates it (`make([]float64, n)`, which panics for negative `n`). -/
def lusolv {ε : Type} (lsolve usolve : Stage ε) (n : Int) (m : SolveMem) :
    Run (Option ε × SolveMem) :=
  if n < 0 then .panic
  else
    let m := { m with rwork := List.replicate n.toNat 0 }
    match lsolve n m with
    | (some err, m) => .ok (some err, m)
    | (none, m) =>
      match usolve n m with
      | (some err, m) => .ok (some err, m)
      | (none, m) => .ok (none, m)

/-! ## Specification vocabulary -/

/-- The entry `A[i]` of a `[]float64` (NaN outside the slice). -/
def ent (A : List F64) (i : Int) : F64 := A.getD i.toNat F64.nan

/-- The slice after exchanging the entries at `i` and `j`. -/
def swapped (A : List F64) (i j : Int) : List F64 :=
  (A.set i.toNat (ent A j)).set j.toNat (ent A i)

/-- `A'` rearranges `A` by moving entries inside positions `p..r` only. -/
def Shuffle (p r : Int) (A A' : List F64) : Prop :=
  A'.length = A.length ∧ A'.Perm A ∧
  (∀ t, 0 ≤ t → (t < p ∨ r < t) → ent A' t = ent A t) ∧
  (∀ t, p ≤ t → t ≤ r → ∃ u, p ≤ u ∧ u ≤ r ∧ ent A' t = ent A u)

/-- None of the entries `A[p..r]` is NaN. -/
def NumIn (p r : Int) (A : List F64) : Prop :=
  ∀ t, p ≤ t → t ≤ r → ent A t ≠ F64.nan

/-- Loop invariant of the selection on a slice whose entries `A[1..n]` are numbers: the
rank `kk` lies in the range `p..r`, and the entries left of the range, inside it and
right of it are in order. -/
def SelInv (n kk p r : Int) (A : List F64) : Prop :=
  1 ≤ p ∧ p ≤ kk ∧ kk ≤ r ∧ r ≤ n ∧ n < A.length ∧ NumIn 1 n A ∧
  (∀ a b, 1 ≤ a → a < p → p ≤ b → b ≤ n → F64.le (ent A a) (ent A b) = true) ∧
  (∀ a b, 1 ≤ a → a ≤ r → r < b → b ≤ n → F64.le (ent A a) (ent A b) = true)

/-- Ghost check: every pivot index drawn on the way from `l100` lies inside the
range that is current at the draw. -/
def drawsInRange (g : Nat) (k : Int) : Nat → Int → Int → List F64 → Int → Bool
  | 0, _, _, _, _ => true
  | f + 1, p, r, A, rnd =>
    if p == r then true
    else
      decide (r - p ≥ 8 →
        p ≤ pivotIndex (nextRnd rnd) p r ∧ pivotIndex (nextRnd rnd) p r ≤ r) &&
      match narrow g k p r A rnd with
      | .ok (p', r', A', rnd') => drawsInRange g k f p' r' A' rnd'
      | _ => true

/-- Ghost check for a whole call of `dordstat`. -/
def pivotsInRange (fuel : Nat) (n k : Int) (m : Mem) : Bool :=
  drawsInRange fuel k fuel 1 n m.A m.rnd

/-- The entries `A[1..t]` of a 1-based slice. -/
def entries {α : Type} (A : List α) (t : Nat) : List α := (A.drop 1).take t

/-- The entries `A[1..n]` of a `[]float64` in ascending order (meaningful when none of
them is NaN). -/
def sortedEntries (n : Int) (A : List F64) : List F64 :=
  (entries A n.toNat).insertionSort (fun a b => F64.le a b = true)

/-- The element at 1-based position `k` of a list, if there is one. -/
def nth1 {α : Type} (l : List α) (k : Int) : Option α :=
  if 1 ≤ k then l[(k - 1).toNat]? else none

/-- Copy through an independent temporary buffer: take a snapshot of the entries
`a[1..la]`, then store the snapshot in `b[1..la]`. -/
def copyViaTemp (M : List Int) (a b : Slice) (la : Int) : List Int :=
  let tmp := (M.drop (a.off + 1)).take la.toNat
  M.take (b.off + 1) ++ tmp ++ M.drop (b.off + 1 + la.toNat)

/-- Entry `pos` of the buffer once the entries `b[lo+1..hi]` have received `a[lo+1..hi]`. -/
def copiedAt (M : List Int) (a b : Slice) (lo hi pos : Nat) : Option Int :=
  if b.off + lo < pos ∧ pos ≤ b.off + hi then M[a.off + (pos - b.off)]? else M[pos]?

/-- The largest entry of a list of row numbers, `0` for the empty list. -/
def maxRow (l : List Int) : Int := l.foldr max 0

/-- State of the histogram after the first `t` entries of `arow` have been counted. -/
def CntInv (arow rowcnt : List Int) (t : Nat) (s : Int × List Int) : Prop :=
  s.2.length = rowcnt.length ∧ 0 ≤ s.1 ∧ s.1 = maxRow (entries arow t) ∧
  ∀ pos : Nat, s.2[pos]? =
    if 1 ≤ pos ∧ (pos : Int) ≤ s.1 then some ((entries arow t).count (pos : Int) : Int)
    else rowcnt[pos]?

/-- State of `cntrowM` after `t` entries of `arow`: `maxk` is the largest row seen, and
only the entries `rowcnt[1..maxk]` of the buffer may differ from the buffer on entry. -/
def CntFrame (M : List Int) (arow rowcnt : Slice) (t : Nat) (s : Int × List Int) : Prop :=
  s.2.length = M.length ∧ 0 ≤ s.1 ∧ (s.1 = 0 ∨ s.1 < rowcnt.len) ∧
  s.1 = maxRow (entries (M.drop arow.off) t) ∧
  ∀ pos : Nat, ¬ (rowcnt.off < pos ∧ (pos : Int) ≤ rowcnt.off + s.1) → s.2[pos]? = M[pos]?

/-! ## Basic facts about runs and slices -/

@[simp] theorem Run.ok_bind {α β : Type} (a : α) (f : α → Run β) : (Run.ok a >>= f) = f a := rfl
@[simp] theorem Run.panic_bind {α β : Type} (f : α → Run β) : (Run.panic >>= f) = Run.panic := rfl
@[simp] theorem Run.fuel_bind {α β : Type} (f : α → Run β) : (Run.fuel >>= f) = Run.fuel := rfl
@[simp] theorem Run.pure_eq {α : Type} (a : α) : (pure a : Run α) = Run.ok a := rfl

theorem Run.bind_eq_ok {α β : Type} {m : Run α} {f : α → Run β} {b : β} :
    (m >>= f) = Run.ok b ↔ ∃ a, m = Run.ok a ∧ f a = Run.ok b := by
  cases m <;> simp

theorem rd_nat {A : List Int} (t : Nat) (ht : t < A.length) :
    rd A (t : Int) = .ok (A.getD t 0) := by
  have h1 : (0 : Int) ≤ (t : Int) ∧ (t : Int) < (A.length : Int) := by omega
  simp only [rd, if_pos h1, Int.toNat_ofNat]

theorem wr_nat {A : List Int} (t : Nat) (v : Int) (ht : t < A.length) :
    wr A (t : Int) v = .ok (A.set t v) := by
  have h1 : (0 : Int) ≤ (t : Int) ∧ (t : Int) < (A.length : Int) := by omega
  simp only [wr, if_pos h1, Int.toNat_ofNat]

theorem srd_nat {M : List Int} {s : Slice} (t : Nat) (ht : t < s.len)
    (hs : s.off + s.len ≤ M.length) : srd M s (t : Int) = .ok (M.getD (s.off + t) 0) := by
  have h1 : (0 : Int) ≤ (t : Int) ∧ (t : Int) < (s.len : Int) := by omega
  have h2 : (0 : Int) ≤ (s.off : Int) + (t : Int) ∧ (s.off : Int) + (t : Int) < (M.length : Int) := by
    omega
  have h3 : ((s.off : Int) + (t : Int)).toNat = s.off + t := by omega
  simp only [srd, rd, if_pos h1, if_pos h2, h3]

theorem swr_nat {M : List Int} {s : Slice} (t : Nat) (v : Int) (ht : t < s.len)
    (hs : s.off + s.len ≤ M.length) : swr M s (t : Int) v = .ok (M.set (s.off + t) v) := by
  have h1 : (0 : Int) ≤ (t : Int) ∧ (t : Int) < (s.len : Int) := by omega
  have h2 : (0 : Int) ≤ (s.off : Int) + (t : Int) ∧ (s.off : Int) + (t : Int) < (M.length : Int) := by
    omega
  have h3 : ((s.off : Int) + (t : Int)).toNat = s.off + t := by omega
  simp only [swr, wr, if_pos h1, if_pos h2, h3]

theorem set_getD_self (M : List Int) (i : Nat) : M.set i (M.getD i 0) = M := by
  apply List.ext_getElem?
  intro t
  rw [List.getElem?_set]
  split
  · rename_i h
    subst h
    split
    · rename_i h2
      simp [List.getElem?_eq_getElem h2]
    · rename_i h2
      simp at h2
      simp [List.getElem?_eq_none h2]
  · rfl

/-- Invariant rule for the ascending counted loop. -/
theorem forUp_inv {σ : Type} (body : Int → σ → Run σ) (Inv : Nat → σ → Prop) (c : Nat)
    (lo : Int) (s : σ) (h0 : Inv 0 s)
    (step : ∀ t s, t < c → Inv t s → ∃ s', body (lo + t) s = .ok s' ∧ Inv (t + 1) s') :
    ∃ s', forUp body c lo s = .ok s' ∧ Inv c s' := by
  induction c generalizing lo s Inv with
  | zero => exact ⟨s, rfl, h0⟩
  | succ c ih =>
    obtain ⟨s1, hb, h1⟩ := step 0 s (Nat.succ_pos c) h0
    simp only [Nat.cast_zero, add_zero] at hb
    have := ih (fun t s => Inv (t + 1) s) (lo + 1) s1 h1 (by
      intro t s ht hi
      obtain ⟨s', hs', hi'⟩ := step (t + 1) s (by omega) hi
      refine ⟨s', ?_, hi'⟩
      rw [← hs']
      congr 1
      push_cast
      ring)
    obtain ⟨s', hs', hi'⟩ := this
    exact ⟨s', by simp only [forUp, hb, Run.ok_bind, hs'], hi'⟩

/-- Invariant rule for the descending counted loop. -/
theorem forDown_inv {σ : Type} (body : Int → σ → Run σ) (Inv : Nat → σ → Prop) (c : Nat)
    (hi : Int) (s : σ) (h0 : Inv 0 s)
    (step : ∀ t s, t < c → Inv t s → ∃ s', body (hi - t) s = .ok s' ∧ Inv (t + 1) s') :
    ∃ s', forDown body c hi s = .ok s' ∧ Inv c s' := by
  induction c generalizing hi s Inv with
  | zero => exact ⟨s, rfl, h0⟩
  | succ c ih =>
    obtain ⟨s1, hb, h1⟩ := step 0 s (Nat.succ_pos c) h0
    simp only [Nat.cast_zero, sub_zero] at hb
    have := ih (fun t s => Inv (t + 1) s) (hi - 1) s1 h1 (by
      intro t s ht hi0
      obtain ⟨s', hs', hi'⟩ := step (t + 1) s (by omega) hi0
      refine ⟨s', ?_, hi'⟩
      rw [← hs']
      congr 1
      push_cast
      ring)
    obtain ⟨s', hs', hi'⟩ := this
    exact ⟨s', by simp only [forDown, hb, Run.ok_bind, hs'], hi'⟩

/-! ## cntrow -/

theorem le_maxRow_iff (l : List Int) (r : Int) (hr : 1 ≤ r) :
    r ≤ maxRow l ↔ ∃ v ∈ l, r ≤ v := by
  induction l with
  | nil => simp [maxRow]; omega
  | cons a l ih =>
    have : maxRow (a :: l) = max a (maxRow l) := rfl
    rw [this, le_max_iff, ih]
    simp

theorem maxRow_append_single (l : List Int) (k : Int) (h : 0 ≤ k) :
    maxRow (l ++ [k]) = max (maxRow l) k := by
  induction l with
  | nil => simp [maxRow]; omega
  | cons a l ih =>
    have e1 : maxRow (a :: l) = max a (maxRow l) := rfl
    have e2 : maxRow (a :: l ++ [k]) = max a (maxRow (l ++ [k])) := rfl
    rw [e1, e2, ih, max_assoc]

theorem count_eq_zero_of_maxRow_lt (l : List Int) (r : Int) (hr : 1 ≤ r) (h : maxRow l < r) :
    l.count r = 0 := by
  rw [List.count_eq_zero]
  intro hm
  have := (le_maxRow_iff l r hr).2 ⟨r, hm, le_refl r⟩
  omega

theorem entries_succ (arow : List Int) (t : Nat) (ht : t + 1 < arow.length) :
    entries arow (t + 1) = entries arow t ++ [arow.getD (t + 1) 0] := by
  unfold entries
  rw [List.take_succ, List.getElem?_drop]
  have : 1 + t < arow.length := by omega
  rw [List.getElem?_eq_getElem this]
  simp [Nat.add_comm, List.getElem?_eq_getElem ht]

/-- The zeroing loop of `cntrow` clears exactly the entries `maxk+1..k`. -/
theorem cntrowClear_spec (maxk k : Nat) (rc : List Int) (hk : maxk ≤ k) (hlen : k < rc.length) :
    ∃ rc', cntrowClear maxk k rc = .ok rc' ∧ rc'.length = rc.length ∧
      ∀ pos : Nat, rc'[pos]? = if maxk < pos ∧ pos ≤ k then some 0 else rc[pos]? := by
  unfold cntrowClear
  have hc : ((k : Int) - (maxk : Int)).toNat = k - maxk := by omega
  rw [hc]
  obtain ⟨N, hN, hl, hinv⟩ := forUp_inv (fun j rc => wr rc j 0)
    (fun t N => N.length = rc.length ∧
      ∀ pos : Nat, N[pos]? = if maxk < pos ∧ pos ≤ maxk + t then some 0 else rc[pos]?)
    (k - maxk) ((maxk : Int) + 1) rc
    ⟨rfl, by intro pos; rw [if_neg (by omega)]⟩
    (by
      rintro t N ht ⟨hl, hinv⟩
      have e : (maxk : Int) + 1 + (t : Int) = ((maxk + 1 + t : Nat) : Int) := by push_cast; ring
      simp only [e]
      rw [wr_nat _ _ (by omega)]
      refine ⟨_, rfl, by simp [hl], ?_⟩
      intro pos
      rw [List.getElem?_set]
      by_cases hp : maxk + 1 + t = pos
      · rw [if_pos hp, if_pos (by omega), if_pos (by omega)]
      · rw [if_neg hp, hinv]
        by_cases hq : maxk < pos ∧ pos ≤ maxk + t
        · rw [if_pos hq, if_pos (by omega)]
        · rw [if_neg hq, if_neg (by omega)])
  refine ⟨N, hN, hl, ?_⟩
  intro pos
  rw [hinv]
  have : maxk + (k - maxk) = k := by omega
  rw [this]

theorem cntrowBody_step (arow rowcnt : List Int) (lasta : Nat) (hlen : lasta < arow.length)
    (hrow : ∀ i : Nat, 1 ≤ i → i ≤ lasta →
      1 ≤ arow.getD i 0 ∧ arow.getD i 0 < rowcnt.length)
    (t : Nat) (s : Int × List Int) (ht : t < lasta) (hinv : CntInv arow rowcnt t s) :
    ∃ s', cntrowBody arow ((1 : Int) + t) s = .ok s' ∧ CntInv arow rowcnt (t + 1) s' := by
  obtain ⟨maxk, rc⟩ := s
  obtain ⟨hl, h0, hmax, hcnt⟩ := hinv
  simp only at hl h0 hmax hcnt
  have e : (1 : Int) + (t : Int) = ((t + 1 : Nat) : Int) := by push_cast; ring
  obtain ⟨hk1, hk2⟩ := hrow (t + 1) (by omega) (by omega)
  generalize hkdef : arow.getD (t + 1) 0 = k at hk1 hk2
  have hrows := entries_succ arow t (by omega)
  rw [hkdef] at hrows
  obtain ⟨kn, rfl⟩ : ∃ kn : Nat, k = (kn : Int) := ⟨k.toNat, by omega⟩
  obtain ⟨mn, rfl⟩ : ∃ mn : Nat, maxk = (mn : Int) := ⟨maxk.toNat, by omega⟩
  have hkn : kn < rc.length := by omega
  have hmax' : maxRow (entries arow (t + 1)) = max (mn : Int) (kn : Int) := by
    rw [hrows, maxRow_append_single _ _ (by omega), ← hmax]
  have hcount : ∀ pos : Nat, (entries arow (t + 1)).count (pos : Int)
      = (entries arow t).count (pos : Int) + if pos = kn then 1 else 0 := by
    intro pos
    rw [hrows, List.count_append]
    congr 1
    by_cases hp : pos = kn
    · simp [hp]
    · rw [if_neg hp]
      have : ¬ ((kn : Int) = (pos : Int)) := by omega
      simp [List.count_cons, this]
  unfold cntrowBody
  rw [e, rd_nat _ (by omega), hkdef]
  simp only [Run.ok_bind]
  by_cases hgt : (kn : Int) > (mn : Int)
  · rw [if_pos hgt]
    obtain ⟨rc', hrc', hl', hclr⟩ := cntrowClear_spec mn kn rc (by omega) hkn
    rw [hrc']
    simp only [Run.ok_bind, Run.pure_eq]
    rw [rd_nat _ (by omega)]
    simp only [Run.ok_bind]
    rw [wr_nat _ _ (by omega)]
    refine ⟨_, rfl, by simp [hl', hl], by simp, by
      show (kn : Int) = _
      rw [hmax', max_eq_right (by omega)], ?_⟩
    intro pos
    simp only
    rw [List.getElem?_set, hcount]
    by_cases hp : kn = pos
    · subst hp
      rw [if_pos rfl, if_pos (by omega), if_pos (by omega), if_pos rfl]
      have h1 := hclr kn
      rw [if_pos (by omega)] at h1
      have h2 : (entries arow t).count (kn : Int) = 0 :=
        count_eq_zero_of_maxRow_lt _ _ hk1 (by omega)
      simp [h1, h2]
    · have hne : ¬ pos = kn := fun h => hp h.symm
      rw [if_neg hp, hclr, if_neg hne]
      by_cases hq : mn < pos ∧ pos ≤ kn
      · rw [if_pos hq, if_pos (by omega)]
        have h2 : (entries arow t).count (pos : Int) = 0 :=
          count_eq_zero_of_maxRow_lt _ _ (by omega) (by omega)
        simp [h2]
      · rw [if_neg hq, hcnt]
        by_cases hr : 1 ≤ pos ∧ (pos : Int) ≤ (mn : Int)
        · rw [if_pos hr, if_pos (by omega)]
          simp
        · rw [if_neg hr, if_neg (by omega)]
  · rw [if_neg hgt]
    simp only [Run.ok_bind, Run.pure_eq]
    rw [rd_nat _ (by omega)]
    simp only [Run.ok_bind]
    rw [wr_nat _ _ (by omega)]
    refine ⟨_, rfl, by simp [hl], by simp, by
      show (mn : Int) = _
      rw [hmax', max_eq_left (by omega)], ?_⟩
    intro pos
    simp only
    rw [List.getElem?_set, hcount]
    by_cases hp : kn = pos
    · subst hp
      rw [if_pos rfl, if_pos (by omega), if_pos (by omega), if_pos rfl]
      have h1 := hcnt kn
      rw [if_pos (by omega)] at h1
      simp [h1]
    · have hne : ¬ pos = kn := fun h => hp h.symm
      rw [if_neg hp, hcnt, if_neg hne]
      simp

theorem cntrow_inv (arow rowcnt : List Int) (lasta : Nat) (hlen : lasta < arow.length)
    (hrow : ∀ i : Nat, 1 ≤ i → i ≤ lasta →
      1 ≤ arow.getD i 0 ∧ arow.getD i 0 < rowcnt.length) :
    ∃ rc, cntrow arow lasta rowcnt = .ok rc ∧
      CntInv arow rowcnt lasta (maxRow (entries arow lasta), rc) := by
  obtain ⟨s, hs, hinv⟩ := forUp_inv (cntrowBody arow) (CntInv arow rowcnt) lasta 1 (0, rowcnt)
    ⟨rfl, le_refl _, by simp [entries, maxRow], by
      intro pos; rw [if_neg (by simp; omega)]⟩
    (cntrowBody_step arow rowcnt lasta hlen hrow)
  refine ⟨s.2, ?_, ?_⟩
  · simp only [cntrow, Int.toNat_ofNat, hs, Run.ok_bind, Run.pure_eq]
  · have := hinv.2.2.1
    rw [← this]
    exact hinv

/-! ## rcopy and icopy -/

theorem copyViaTemp_get (M : List Int) (a b : Slice) (la : Nat)
    (ha : a.off + la < M.length) (hb : b.off + la < M.length) (pos : Nat) :
    (copyViaTemp M a b la)[pos]? = copiedAt M a b 0 la pos := by
  unfold copyViaTemp copiedAt
  simp only [Int.toNat_ofNat, add_zero]
  rw [List.append_assoc, List.getElem?_append]
  have hl1 : (List.take (b.off + 1) M).length = b.off + 1 := by
    rw [List.length_take]; omega
  rw [hl1]
  split
  · rename_i h
    rw [if_neg (by omega), List.getElem?_take_of_lt h]
  · rename_i h
    rw [List.getElem?_append]
    have hl2 : (List.take la (List.drop (a.off + 1) M)).length = la := by
      rw [List.length_take, List.length_drop]; omega
    rw [hl2]
    split
    · rename_i h2
      rw [if_pos (by omega), List.getElem?_take_of_lt h2, List.getElem?_drop]
      congr 1
      omega
    · rename_i h2
      rw [if_neg (by omega), List.getElem?_drop]
      congr 1
      omega

theorem copyStep_nat {M N : List Int} {a b : Slice} (t : Nat) (hN : N.length = M.length)
    (hta : t < a.len) (htb : t < b.len)
    (hma : a.off + a.len ≤ M.length) (hmb : b.off + b.len ≤ M.length) :
    copyStep a b (t : Int) N = .ok (N.set (b.off + t) (N.getD (a.off + t) 0)) := by
  unfold copyStep
  rw [srd_nat t hta (by omega)]
  simp only [Run.ok_bind]
  rw [swr_nat t _ htb (by omega)]

/-- Ascending copy equals the copy through a temporary whenever the destination
does not start inside the part of the source still to be read. -/
theorem copyUp_eq (M : List Int) (a b : Slice) (la : Nat)
    (hla : la < a.len) (hlb : la < b.len)
    (hma : a.off + a.len ≤ M.length) (hmb : b.off + b.len ≤ M.length)
    (hdir : b.off ≤ a.off ∨ a.off + la ≤ b.off) :
    forUp (copyStep a b) la 1 M = .ok (copyViaTemp M a b la) := by
  obtain ⟨N, hN, hlen, hinv⟩ := forUp_inv (copyStep a b)
    (fun t N => N.length = M.length ∧ ∀ pos, N[pos]? = copiedAt M a b 0 t pos) la 1 M
    ⟨rfl, by intro pos; unfold copiedAt; rw [if_neg (by omega)]⟩
    (by
      rintro t N ht ⟨hlen, hinv⟩
      have e : (1 : Int) + (t : Int) = ((t + 1 : Nat) : Int) := by push_cast; ring
      rw [e, copyStep_nat (M := M) (t + 1) hlen (by omega) (by omega) hma hmb]
      refine ⟨_, rfl, by simp [hlen], ?_⟩
      intro pos
      rw [List.getElem?_set]
      by_cases hp : b.off + (t + 1) = pos
      · subst hp
        rw [if_pos rfl, if_pos (by simp [hlen]; omega)]
        unfold copiedAt
        rw [if_pos (by omega)]
        have : N[a.off + (t + 1)]? = M[a.off + (t + 1)]? := by
          rw [hinv]; unfold copiedAt
          rw [if_neg (by omega)]
        simp only [List.getD_eq_getElem?_getD, this]
        have h1 : a.off + (t + 1) < M.length := by omega
        rw [List.getElem?_eq_getElem h1]
        simp
      · rw [if_neg hp, hinv]
        unfold copiedAt
        by_cases hq : b.off + 0 < pos ∧ pos ≤ b.off + t
        · rw [if_pos hq, if_pos (by omega)]
        · rw [if_neg hq, if_neg (by omega)])
  rw [hN]
  congr 1
  apply List.ext_getElem?
  intro pos
  rw [hinv, copyViaTemp_get M a b la (by omega) (by omega)]

/-- Descending copy equals the copy through a temporary whenever the destination
does not end inside the part of the source still to be read. -/
theorem copyDown_eq (M : List Int) (a b : Slice) (la : Nat)
    (hla : la < a.len) (hlb : la < b.len)
    (hma : a.off + a.len ≤ M.length) (hmb : b.off + b.len ≤ M.length)
    (hdir : a.off ≤ b.off ∨ b.off + la ≤ a.off) :
    forDown (copyStep a b) la la M = .ok (copyViaTemp M a b la) := by
  obtain ⟨N, hN, hlen, hinv⟩ := forDown_inv (copyStep a b)
    (fun t N => N.length = M.length ∧ ∀ pos, N[pos]? = copiedAt M a b (la - t) la pos) la la M
    ⟨rfl, by intro pos; unfold copiedAt; rw [if_neg (by omega)]⟩
    (by
      rintro t N ht ⟨hlen, hinv⟩
      have e : (la : Int) - (t : Int) = ((la - t : Nat) : Int) := by omega
      rw [e, copyStep_nat (M := M) (la - t) hlen (by omega) (by omega) hma hmb]
      refine ⟨_, rfl, by simp [hlen], ?_⟩
      intro pos
      rw [List.getElem?_set]
      by_cases hp : b.off + (la - t) = pos
      · subst hp
        rw [if_pos rfl, if_pos (by simp [hlen]; omega)]
        unfold copiedAt
        rw [if_pos (by omega)]
        have : N[a.off + (la - t)]? = M[a.off + (la - t)]? := by
          rw [hinv]; unfold copiedAt
          rw [if_neg (by omega)]
        simp only [List.getD_eq_getElem?_getD, this]
        have h1 : a.off + (la - t) < M.length := by omega
        rw [List.getElem?_eq_getElem h1]
        simp
      · rw [if_neg hp, hinv]
        unfold copiedAt
        by_cases hq : b.off + (la - t) < pos ∧ pos ≤ b.off + la
        · rw [if_pos hq, if_pos (by omega)]
        · rw [if_neg hq, if_neg (by omega)])
  rw [hN]
  congr 1
  apply List.ext_getElem?
  intro pos
  rw [hinv, copyViaTemp_get M a b la (by omega) (by omega)]
  simp

/-! ## requiv -/

/-- The exact outcome of the probe on two windows that both have an entry at index 1. -/
theorem requiv_eq (M : List Int) (a b : Slice) (ha : 1 < a.len) (hb : 1 < b.len)
    (hma : a.off + a.len ≤ M.length) (hmb : b.off + b.len ≤ M.length) :
    requiv M a b = .ok (decide (a.off = b.off), M) := by
  have r1 := srd_nat (M := M) 1 ha hma
  have hlen : ∀ v w, ((M.set (a.off + 1) v).set (a.off + 1) w).length = M.length := by simp
  simp only [Nat.cast_one] at r1
  have w1 : ∀ (N : List Int) v, N.length = M.length → swr N a 1 v = .ok (N.set (a.off + 1) v) := by
    intro N v hN
    have := swr_nat (M := N) (s := a) 1 v ha (by omega)
    simpa using this
  have b1 : ∀ (N : List Int), N.length = M.length → srd N b 1 = .ok (N.getD (b.off + 1) 0) := by
    intro N hN
    have := srd_nat (M := N) (s := b) 1 hb (by omega)
    simpa using this
  unfold requiv
  rw [r1]
  simp only [Run.ok_bind]
  rw [w1 M 0 rfl]
  simp only [Run.ok_bind]
  rw [b1 _ (by simp)]
  simp only [Run.ok_bind]
  by_cases hab : a.off = b.off
  · have e0 : (M.set (a.off + 1) 0).getD (b.off + 1) 0 = 0 := by
      rw [hab]; simp; 
      rw [List.getElem?_set]; simp
      split <;> simp
    have e1 : ((M.set (a.off + 1) 0).set (a.off + 1) 1).getD (b.off + 1) 0 = 1 := by
      rw [hab]; simp
      rw [List.getElem?_set]; simp
      rw [if_pos (by omega)]; rfl
    rw [e0]
    simp only [bne_self_eq_false, Bool.false_eq_true, if_false]
    rw [w1 _ 1 (by simp)]
    simp only [Run.ok_bind]
    rw [b1 _ (by simp), e1]
    simp only [Run.ok_bind, bne_self_eq_false, Bool.false_eq_true, if_false]
    rw [w1 _ _ (by simp)]
    simp only [Run.ok_bind, Run.pure_eq, List.set_set, set_getD_self, hab, decide_True]
  · have hne : a.off + 1 ≠ b.off + 1 := by omega
    have e0 : ∀ v, (M.set (a.off + 1) v).getD (b.off + 1) 0 = M.getD (b.off + 1) 0 := by
      intro v; simp [List.getElem?_set_ne hne]
    have e1 : ∀ v w, ((M.set (a.off + 1) v).set (a.off + 1) w).getD (b.off + 1) 0
        = M.getD (b.off + 1) 0 := by
      intro v w; simp [List.getElem?_set_ne hne]
    rw [e0]
    by_cases hz : M.getD (b.off + 1) 0 = 0
    · rw [hz]
      simp only [bne_self_eq_false, Bool.false_eq_true, if_false]
      rw [w1 _ 1 (by simp)]
      simp only [Run.ok_bind]
      rw [b1 _ (by simp), e1, hz]
      simp only [Run.ok_bind]
      have : ((0 : Int) != 1) = true := by decide
      rw [if_pos this]
      rw [w1 _ _ (by simp)]
      simp only [Run.ok_bind, Run.pure_eq, List.set_set, set_getD_self, hab, decide_False]
    · have : (M.getD (b.off + 1) 0 != 0) = true := by simpa using hz
      rw [if_pos this]
      rw [w1 _ _ (by simp)]
      simp only [Run.ok_bind, Run.pure_eq, List.set_set, set_getD_self, hab, decide_False]

/-! ## rfill and ifill -/

/-- The fill loop stores `v` in the entries `1..la` and leaves the others alone. -/
theorem fill_spec (a : List Int) (la : Nat) (v : Int) (hla : la < a.length) :
    ∃ a', forUp (fun i a => wr a i v) la 1 a = .ok a' ∧ a'.length = a.length ∧
      ∀ pos : Nat, a'[pos]? = if 1 ≤ pos ∧ pos ≤ la then some v else a[pos]? := by
  obtain ⟨N, hN, hl, hinv⟩ := forUp_inv (fun i a => wr a i v)
    (fun t N => N.length = a.length ∧
      ∀ pos : Nat, N[pos]? = if 1 ≤ pos ∧ pos ≤ t then some v else a[pos]?) la 1 a
    ⟨rfl, by intro pos; rw [if_neg (by omega)]⟩
    (by
      rintro t N ht ⟨hl, hinv⟩
      have e : (1 : Int) + (t : Int) = ((t + 1 : Nat) : Int) := by push_cast; ring
      simp only [e]
      rw [wr_nat _ _ (by omega)]
      refine ⟨_, rfl, by simp [hl], ?_⟩
      intro pos
      rw [List.getElem?_set]
      by_cases hp : t + 1 = pos
      · rw [if_pos hp, if_pos (by omega), if_pos (by omega)]
      · rw [if_neg hp, hinv]
        by_cases hq : 1 ≤ pos ∧ pos ≤ t
        · rw [if_pos hq, if_pos (by omega)]
        · rw [if_neg hq, if_neg (by omega)])
  exact ⟨N, hN, hl, hinv⟩

/-! ## cntrow on windows of one buffer -/

theorem cntrowClearM_spec (rc : Slice) (mn kn : Nat) (N : List Int) (hk : mn ≤ kn)
    (hkn : kn < rc.len) (hrc : rc.off + rc.len ≤ N.length) :
    ∃ N', cntrowClearM rc mn kn N = .ok N' ∧ N'.length = N.length ∧
      ∀ pos : Nat, N'[pos]? =
        if rc.off + mn < pos ∧ pos ≤ rc.off + kn then some 0 else N[pos]? := by
  unfold cntrowClearM
  have hc : ((kn : Int) - (mn : Int)).toNat = kn - mn := by omega
  rw [hc]
  obtain ⟨N', hN, hl, hinv⟩ := forUp_inv (fun j M => swr M rc j 0)
    (fun t N' => N'.length = N.length ∧
      ∀ pos : Nat, N'[pos]? =
        if rc.off + mn < pos ∧ pos ≤ rc.off + mn + t then some 0 else N[pos]?)
    (kn - mn) ((mn : Int) + 1) N
    ⟨rfl, by intro pos; rw [if_neg (by omega)]⟩
    (by
      rintro t N' ht ⟨hl, hinv⟩
      have e : (mn : Int) + 1 + (t : Int) = ((mn + 1 + t : Nat) : Int) := by push_cast; ring
      simp only [e]
      rw [swr_nat _ _ (by omega) (by omega)]
      refine ⟨_, rfl, by simp [hl], ?_⟩
      intro pos
      rw [List.getElem?_set]
      by_cases hp : rc.off + (mn + 1 + t) = pos
      · rw [if_pos hp, if_pos (by omega), if_pos (by omega)]
      · rw [if_neg hp, hinv]
        by_cases hq : rc.off + mn < pos ∧ pos ≤ rc.off + mn + t
        · rw [if_pos hq, if_pos (by omega)]
        · rw [if_neg hq, if_neg (by omega)])
  refine ⟨N', hN, hl, ?_⟩
  intro pos
  rw [hinv]
  have : rc.off + mn + (kn - mn) = rc.off + kn := by omega
  rw [this]

theorem getD_drop (M : List Int) (off i : Nat) :
    (M.drop off).getD i 0 = M.getD (off + i) 0 := by
  simp [List.getElem?_drop]

theorem cntrowBodyM_step (M : List Int) (arow rowcnt : Slice) (lasta : Nat)
    (hla : lasta < arow.len) (hma : arow.off + arow.len ≤ M.length)
    (hmr : rowcnt.off + rowcnt.len ≤ M.length)
    (hdisj : arow.off + arow.len ≤ rowcnt.off ∨ rowcnt.off + rowcnt.len ≤ arow.off)
    (hrow : ∀ i : Nat, 1 ≤ i → i ≤ lasta →
      1 ≤ M.getD (arow.off + i) 0 ∧ M.getD (arow.off + i) 0 < rowcnt.len)
    (t : Nat) (s : Int × List Int) (ht : t < lasta) (hinv : CntFrame M arow rowcnt t s) :
    ∃ s', cntrowBodyM arow rowcnt ((1 : Int) + t) s = .ok s' ∧
      CntFrame M arow rowcnt (t + 1) s' := by
  obtain ⟨maxk, N⟩ := s
  obtain ⟨hl, h0, hsmall, hmax, hfr⟩ := hinv
  simp only at hl h0 hsmall hmax hfr
  have e : (1 : Int) + (t : Int) = ((t + 1 : Nat) : Int) := by push_cast; ring
  obtain ⟨hk1, hk2⟩ := hrow (t + 1) (by omega) (by omega)
  generalize hkdef : M.getD (arow.off + (t + 1)) 0 = k at hk1 hk2
  have hrows : entries (M.drop arow.off) (t + 1) = entries (M.drop arow.off) t ++ [k] := by
    rw [entries_succ _ t (by rw [List.length_drop]; omega), getD_drop, hkdef]
  obtain ⟨kn, rfl⟩ : ∃ kn : Nat, k = (kn : Int) := ⟨k.toNat, by omega⟩
  obtain ⟨mn, rfl⟩ : ∃ mn : Nat, maxk = (mn : Int) := ⟨maxk.toNat, by omega⟩
  have hmax' : maxRow (entries (M.drop arow.off) (t + 1)) = max (mn : Int) (kn : Int) := by
    rw [hrows, maxRow_append_single _ _ (by omega), ← hmax]
  have hread : N.getD (arow.off + (t + 1)) 0 = (kn : Int) := by
    have := hfr (arow.off + (t + 1)) (by omega)
    simp only [List.getD_eq_getElem?_getD, this]
    simpa using hkdef
  unfold cntrowBodyM
  dsimp only
  rw [e, srd_nat (t + 1) (by omega) (by omega), hread]
  simp only [Run.ok_bind]
  by_cases hgt : (kn : Int) > (mn : Int)
  · rw [if_pos hgt]
    obtain ⟨N1, hN1, hl1, hclr⟩ := cntrowClearM_spec rowcnt mn kn N (by omega) (by omega)
      (by omega)
    rw [hN1]
    simp only [Run.ok_bind, Run.pure_eq]
    rw [srd_nat kn (by omega) (by omega)]
    simp only [Run.ok_bind]
    rw [swr_nat kn _ (by omega) (by omega)]
    refine ⟨_, rfl, by simp [hl1, hl], by simp, Or.inr (by simpa using hk2), by
      show (kn : Int) = _
      rw [hmax', max_eq_right (by omega)], ?_⟩
    intro pos hpos
    simp only at hpos ⊢
    rw [List.getElem?_set, if_neg (by omega), hclr, if_neg (by omega)]
    exact hfr pos (by omega)
  · rw [if_neg hgt]
    simp only [Run.ok_bind, Run.pure_eq]
    rw [srd_nat kn (by omega) (by omega)]
    simp only [Run.ok_bind]
    rw [swr_nat kn _ (by omega) (by omega)]
    refine ⟨_, rfl, by simp [hl], by simp, by simpa using hsmall, by
      show (mn : Int) = _
      rw [hmax', max_eq_left (by omega)], ?_⟩
    intro pos hpos
    simp only at hpos ⊢
    rw [List.getElem?_set, if_neg (by omega)]
    exact hfr pos hpos

theorem cntrowM_frame (M : List Int) (arow rowcnt : Slice) (lasta : Nat)
    (hla : lasta < arow.len) (hma : arow.off + arow.len ≤ M.length)
    (hmr : rowcnt.off + rowcnt.len ≤ M.length)
    (hdisj : arow.off + arow.len ≤ rowcnt.off ∨ rowcnt.off + rowcnt.len ≤ arow.off)
    (hrow : ∀ i : Nat, 1 ≤ i → i ≤ lasta →
      1 ≤ M.getD (arow.off + i) 0 ∧ M.getD (arow.off + i) 0 < rowcnt.len) :
    ∃ M', cntrowM M arow rowcnt lasta = .ok M' ∧
      CntFrame M arow rowcnt lasta (maxRow (entries (M.drop arow.off) lasta), M') := by
  obtain ⟨s, hs, hinv⟩ := forUp_inv (cntrowBodyM arow rowcnt) (CntFrame M arow rowcnt) lasta 1
    (0, M)
    ⟨rfl, le_refl _, Or.inl rfl, by simp [entries, maxRow], fun pos _ => rfl⟩
    (cntrowBodyM_step M arow rowcnt lasta hla hma hmr hdisj hrow)
  refine ⟨s.2, ?_, ?_⟩
  · simp only [cntrowM, Int.toNat_ofNat, hs, Run.ok_bind, Run.pure_eq]
  · have := hinv.2.2.2.1
    rw [← this]
    exact hinv

/-! ## float64 comparisons -/

theorem F64.gt_self (a : F64) : F64.gt a a = false := by
  cases a <;> simp [F64.gt]

theorem F64.lt_self (a : F64) : F64.lt a a = false := by
  cases a <;> simp [F64.lt]

theorem F64.lt_false_of_gt {a x : F64} (h : F64.gt a x = true) : F64.lt a x = false := by
  cases a <;> cases x <;> simp [F64.gt, F64.lt] at h ⊢
  omega

theorem F64.gt_false_of_lt {a x : F64} (h : F64.lt a x = true) : F64.gt a x = false := by
  cases a <;> cases x <;> simp [F64.gt, F64.lt] at h ⊢
  omega

theorem F64.eq_num_val {a : F64} (h : a ≠ F64.nan) : a = F64.num a.val := by
  cases a
  · rfl
  · exact absurd rfl h

theorem F64.le_iff_val {a b : F64} (ha : a ≠ F64.nan) (hb : b ≠ F64.nan) :
    F64.le a b = true ↔ a.val ≤ b.val := by
  cases a
  · cases b
    · simp [F64.le, F64.val]
    · exact absurd rfl hb
  · exact absurd rfl ha

theorem F64.val_le_of_not_gt {a x : F64} (ha : a ≠ F64.nan) (hx : x ≠ F64.nan)
    (h : F64.gt a x = false) : a.val ≤ x.val := by
  cases a
  · cases x
    · simpa [F64.gt, F64.val] using h
    · exact absurd rfl hx
  · exact absurd rfl ha

theorem F64.val_le_of_not_lt {a x : F64} (ha : a ≠ F64.nan) (hx : x ≠ F64.nan)
    (h : F64.lt a x = false) : x.val ≤ a.val := by
  cases a
  · cases x
    · simpa [F64.lt, F64.val] using h
    · exact absurd rfl hx
  · exact absurd rfl ha

/-! ## Reading and writing a `[]float64` -/

theorem frd_ok {A : List F64} {i : Int} (h0 : 0 ≤ i) (h1 : i < A.length) :
    frd A i = .ok (ent A i) := by
  simp [frd, ent, h0, h1]

theorem fwr_ok {A : List F64} {i : Int} (v : F64) (h0 : 0 ≤ i) (h1 : i < A.length) :
    fwr A i v = .ok (A.set i.toNat v) := by
  simp [fwr, h0, h1]

theorem frd_eq_ok {A : List F64} {i : Int} {v : F64} (h : frd A i = .ok v) :
    0 ≤ i ∧ i < A.length ∧ v = ent A i := by
  unfold frd at h
  split at h
  · rename_i hc
    exact ⟨hc.1, hc.2, (Run.ok.inj h).symm⟩
  · exact Run.noConfusion h

theorem ent_set (A : List F64) (i t : Int) (v : F64) (hi0 : 0 ≤ i) (hi : i < A.length)
    (ht : 0 ≤ t) : ent (A.set i.toNat v) t = if t = i then v else ent A t := by
  unfold ent
  simp only [List.getD_eq_getElem?_getD, List.getElem?_set]
  by_cases h : t = i
  · subst h
    rw [if_pos rfl, if_pos rfl, if_pos (by omega)]
    rfl
  · rw [if_neg h, if_neg (by omega)]

/-! ## dordstat: scans and exchanges -/

theorem l100_info (g : Nat) (k : Int) (f : Nat) (p r : Int) (m m' : Mem)
    (h : l100 g k f p r m = .ok m') : m'.info = 0 := by
  induction f generalizing p r m with
  | zero => simp [l100] at h
  | succ f ih =>
    rw [l100] at h
    split at h
    · rw [Run.bind_eq_ok] at h
      obtain ⟨v, _, hv⟩ := h
      simp at hv
      rw [← hv]
    · rw [Run.bind_eq_ok] at h
      obtain ⟨⟨p', r', A', rnd'⟩, _, h2⟩ := h
      exact ih _ _ _ h2

/-- Scanning down from `j` stops at the first entry that is not above `x`, which exists
at or above the sentinel `s`. -/
theorem l210_spec (A : List F64) (x : F64) (g : Nat) (j s : Int) (hs0 : 0 ≤ s) (hsj : s < j)
    (hj : j ≤ A.length) (hsx : F64.gt (ent A s) x = false) (hg : j - s ≤ g) :
    ∃ j', l210 A x g j = .ok j' ∧ s ≤ j' ∧ j' < j ∧ F64.gt (ent A j') x = false ∧
      ∀ t, j' < t → t < j → F64.gt (ent A t) x = true := by
  induction g generalizing j with
  | zero => omega
  | succ g ih =>
    rw [l210]
    rw [frd_ok (by omega) (by omega)]
    simp only [Run.ok_bind]
    by_cases hgt : F64.gt (ent A (j - 1)) x = true
    · rw [if_pos hgt]
      have hne : s ≠ j - 1 := by
        intro h; rw [← h, hsx] at hgt; exact Bool.noConfusion hgt
      obtain ⟨j', h1, h2, h3, h4, h5⟩ := ih (j - 1) (by omega) (by omega) (by omega)
      refine ⟨j', h1, h2, by omega, h4, ?_⟩
      intro t ht1 ht2
      by_cases e : t = j - 1
      · rw [e]; exact hgt
      · exact h5 t ht1 (by omega)
    · rw [if_neg hgt]
      refine ⟨j - 1, rfl, by omega, by omega, by simpa using hgt, ?_⟩
      intro t ht1 ht2
      omega

/-- Scanning up from `i` stops at the first entry that is not below `x`, which exists
at or below the sentinel `s`. -/
theorem l220_spec (A : List F64) (x : F64) (g : Nat) (i s : Int) (hi0 : -1 ≤ i) (his : i < s)
    (hs : s < A.length) (hsx : F64.lt (ent A s) x = false) (hg : s - i ≤ g) :
    ∃ i', l220 A x g i = .ok i' ∧ i < i' ∧ i' ≤ s ∧ F64.lt (ent A i') x = false ∧
      ∀ t, i < t → t < i' → F64.lt (ent A t) x = true := by
  induction g generalizing i with
  | zero => omega
  | succ g ih =>
    rw [l220]
    rw [frd_ok (by omega) (by omega)]
    simp only [Run.ok_bind]
    by_cases hlt : F64.lt (ent A (i + 1)) x = true
    · rw [if_pos hlt]
      have hne : s ≠ i + 1 := by
        intro h; rw [← h, hsx] at hlt; exact Bool.noConfusion hlt
      obtain ⟨i', h1, h2, h3, h4, h5⟩ := ih (i + 1) (by omega) (by omega) (by omega)
      refine ⟨i', h1, by omega, h3, h4, ?_⟩
      intro t ht1 ht2
      by_cases e : t = i + 1
      · rw [e]; exact hlt
      · exact h5 t (by omega) ht2
    · rw [if_neg hlt]
      refine ⟨i + 1, rfl, by omega, by omega, by simpa using hlt, ?_⟩
      intro t ht1 ht2
      omega

theorem exchange_ok (A : List F64) (i j : Int) (hi0 : 0 ≤ i) (hi : i < A.length)
    (hj0 : 0 ≤ j) (hj : j < A.length) : exchange A i j = .ok (swapped A i j) := by
  unfold exchange swapped
  rw [frd_ok hi0 hi]
  simp only [Run.ok_bind]
  rw [frd_ok hj0 hj]
  simp only [Run.ok_bind]
  rw [fwr_ok _ hi0 hi]
  simp only [Run.ok_bind]
  rw [fwr_ok _ hj0 (by simpa using hj)]

theorem swapped_length (A : List F64) (i j : Int) : (swapped A i j).length = A.length := by
  simp [swapped]

theorem ent_swapped (A : List F64) (i j t : Int) (hi0 : 0 ≤ i) (hi : i < A.length)
    (hj0 : 0 ≤ j) (hj : j < A.length) (ht : 0 ≤ t) :
    ent (swapped A i j) t = if t = j then ent A i else if t = i then ent A j else ent A t := by
  unfold swapped
  rw [ent_set _ _ _ _ hj0 (by simpa using hj) ht, ent_set _ _ _ _ hi0 hi ht]

theorem count_set_getD (A : List F64) (i : Nat) (v c : F64) (hi : i < A.length) :
    (A.set i v).count c + (if A.getD i F64.nan = c then 1 else 0)
      = A.count c + (if v = c then 1 else 0) := by
  induction A generalizing i with
  | nil => simp at hi
  | cons a A ih =>
    cases i with
    | zero =>
      simp only [List.set_cons_zero, List.count_cons, List.getD_cons_zero, beq_iff_eq]
      omega
    | succ i =>
      simp only [List.set_cons_succ, List.count_cons, List.getD_cons_succ, beq_iff_eq]
      have := ih i (by simpa using hi)
      omega

theorem swapped_perm (A : List F64) (i j : Int) (hi0 : 0 ≤ i) (hi : i < A.length)
    (hj0 : 0 ≤ j) (hj : j < A.length) : (swapped A i j).Perm A := by
  rw [List.perm_iff_count]
  intro c
  have h1 := count_set_getD A i.toNat (ent A j) c (by omega)
  have h2 := count_set_getD (A.set i.toNat (ent A j)) j.toNat (ent A i) c (by simp; omega)
  have h3 : (A.set i.toNat (ent A j)).getD j.toNat F64.nan
      = ent (A.set i.toNat (ent A j)) j := rfl
  rw [h3, ent_set _ _ _ _ hi0 hi hj0] at h2
  have h4 : A.getD i.toNat F64.nan = ent A i := rfl
  rw [h4] at h1
  unfold swapped
  by_cases e : j = i
  · subst e
    rw [if_pos rfl] at h2
    omega
  · rw [if_neg e] at h2
    omega

theorem Shuffle.refl (p r : Int) (A : List F64) : Shuffle p r A A :=
  ⟨rfl, List.Perm.refl _, fun _ _ _ => rfl, fun t h1 h2 => ⟨t, h1, h2, rfl⟩⟩

theorem Shuffle.trans {p r : Int} {A B C : List F64} (h1 : Shuffle p r A B)
    (h2 : Shuffle p r B C) : Shuffle p r A C := by
  obtain ⟨l1, p1, f1, w1⟩ := h1
  obtain ⟨l2, p2, f2, w2⟩ := h2
  refine ⟨by omega, p2.trans p1, ?_, ?_⟩
  · intro t ht ho
    rw [f2 t ht ho, f1 t ht ho]
  · intro t hp hr
    obtain ⟨u, hu1, hu2, hu3⟩ := w2 t hp hr
    obtain ⟨v, hv1, hv2, hv3⟩ := w1 u hu1 hu2
    exact ⟨v, hv1, hv2, by rw [hu3, hv3]⟩

theorem Shuffle.mono {p r p' r' : Int} {A B : List F64} (h : Shuffle p' r' A B)
    (hp0 : 0 ≤ p) (hp : p ≤ p') (hr : r' ≤ r) : Shuffle p r A B := by
  obtain ⟨l1, p1, f1, w1⟩ := h
  refine ⟨l1, p1, ?_, ?_⟩
  · intro t ht ho
    exact f1 t ht (by omega)
  · intro t h1 h2
    by_cases hin : p' ≤ t ∧ t ≤ r'
    · obtain ⟨u, hu1, hu2, hu3⟩ := w1 t hin.1 hin.2
      exact ⟨u, by omega, by omega, hu3⟩
    · exact ⟨t, h1, h2, f1 t (by omega) (by omega)⟩

theorem Shuffle_swapped (p r i j : Int) (A : List F64) (hp0 : 0 ≤ p) (hr : r < A.length)
    (hi1 : p ≤ i) (hi2 : i ≤ r) (hj1 : p ≤ j) (hj2 : j ≤ r) :
    Shuffle p r A (swapped A i j) := by
  have hi0 : 0 ≤ i := by omega
  have hj0 : 0 ≤ j := by omega
  have hi : i < A.length := by omega
  have hj : j < A.length := by omega
  refine ⟨swapped_length A i j, swapped_perm A i j hi0 hi hj0 hj, ?_, ?_⟩
  · intro t ht ho
    rw [ent_swapped A i j t hi0 hi hj0 hj ht, if_neg (by omega), if_neg (by omega)]
  · intro t h1 h2
    rw [ent_swapped A i j t hi0 hi hj0 hj (by omega)]
    by_cases e1 : t = j
    · rw [if_pos e1]; exact ⟨i, hi1, hi2, rfl⟩
    · rw [if_neg e1]
      by_cases e2 : t = i
      · rw [if_pos e2]; exact ⟨j, hj1, hj2, rfl⟩
      · rw [if_neg e2]; exact ⟨t, h1, h2, rfl⟩

theorem NumIn_of_shuffle {p r : Int} {A A' : List F64} (s : Shuffle p r A A')
    (h : NumIn p r A) : NumIn p r A' := by
  intro t h1 h2
  obtain ⟨u, hu1, hu2, hu3⟩ := s.2.2.2 t h1 h2
  rw [hu3]
  exact h u hu1 hu2

/-! ## dordstat: the partition pass -/

/-- A partition pass resumed from scanning indices `i < j` that already separate
the range: it ends at some `j' < j`, with no entry of `p..j'` above `x` and no entry of
`j'+1..r` below `x`. -/
theorem l200_resume (g : Nat) (x : F64) (p r : Int) (f : Nat) (A : List F64) (i j : Int)
    (hp0 : 0 ≤ p) (hr : r < A.length) (hg : A.length ≤ g)
    (hpi : p ≤ i) (hij : i < j) (hjr : j ≤ r) (hf : j - i ≤ f)
    (hlo : ∀ t, p ≤ t → t ≤ i → F64.gt (ent A t) x = false)
    (hhi : ∀ t, j ≤ t → t ≤ r → F64.lt (ent A t) x = false) :
    ∃ A' j', l200 g x f A i j = .ok (A', j') ∧ p ≤ j' ∧ j' < j ∧ Shuffle p r A A' ∧
      (∀ t, p ≤ t → t ≤ j' → F64.gt (ent A' t) x = false) ∧
      (∀ t, j' < t → t ≤ r → F64.lt (ent A' t) x = false) := by
  induction f generalizing A i j with
  | zero => omega
  | succ f ih =>
    obtain ⟨j1, e1, a1, a2, a3, a4⟩ := l210_spec A x g j i (by omega) hij (by omega)
      (hlo i hpi (le_refl _)) (by omega)
    obtain ⟨i1, e2, b1, b2, b3, b4⟩ := l220_spec A x g i j (by omega) hij (by omega)
      (hhi j (le_refl _) hjr) (by omega)
    rw [l200, e1]
    simp only [Run.ok_bind]
    rw [e2]
    simp only [Run.ok_bind]
    by_cases hc : i1 < j1
    · rw [if_pos hc, exchange_ok A i1 j1 (by omega) (by omega) (by omega) (by omega)]
      simp only [Run.ok_bind]
      have hent := fun t ht => ent_swapped A i1 j1 t (by omega) (by omega) (by omega) (by omega) ht
      obtain ⟨A', j', e3, c1, c2, c3, c4, c5⟩ := ih (swapped A i1 j1) i1 j1
        (by rw [swapped_length]; exact hr) (by rw [swapped_length]; exact hg)
        (by omega) hc (by omega) (by omega)
        (by
          intro t h1 h2
          rw [hent t (by omega), if_neg (by omega)]
          by_cases e : t = i1
          · rw [if_pos e]; exact a3
          · rw [if_neg e]
            by_cases e' : t ≤ i
            · exact hlo t h1 e'
            · exact F64.gt_false_of_lt (b4 t (by omega) (by omega)))
        (by
          intro t h1 h2
          rw [hent t (by omega)]
          by_cases e : t = j1
          · rw [if_pos e]; exact b3
          · rw [if_neg e, if_neg (by omega)]
            by_cases e' : j ≤ t
            · exact hhi t e' h2
            · exact F64.lt_false_of_gt (a4 t (by omega) (by omega)))
      exact ⟨A', j', e3, c1, by omega,
        (Shuffle_swapped p r i1 j1 A hp0 hr (by omega) (by omega) (by omega) (by omega)).trans c3,
        c4, c5⟩
    · rw [if_neg hc]
      refine ⟨A, j1, rfl, by omega, a2, Shuffle.refl p r A, ?_, ?_⟩
      · intro t h1 h2
        by_cases e' : t ≤ i
        · exact hlo t h1 e'
        · by_cases e : t = j1
          · rw [e]; exact a3
          · exact F64.gt_false_of_lt (b4 t (by omega) (by omega))
      · intro t h1 h2
        by_cases e' : j ≤ t
        · exact hhi t e' h2
        · exact F64.lt_false_of_gt (a4 t h1 (by omega))

/-- A whole partition pass of the range `p..r` around the pivot value `x = A[p]`,
whatever the entries are. -/
theorem l200_pass (g : Nat) (x : F64) (p r : Int) (f : Nat) (A : List F64)
    (hp0 : 0 ≤ p) (hpr : p < r) (hr : r < A.length) (hg : A.length ≤ g) (hf : r - p + 1 ≤ f)
    (hx : ent A p = x) :
    ∃ A' j', l200 g x f A (p - 1) (r + 1) = .ok (A', j') ∧ p ≤ j' ∧ j' < r ∧ Shuffle p r A A' ∧
      (∀ t, p ≤ t → t ≤ j' → F64.gt (ent A' t) x = false) ∧
      (∀ t, j' < t → t ≤ r → F64.lt (ent A' t) x = false) := by
  obtain ⟨f, rfl⟩ : ∃ f', f = f' + 1 := ⟨f - 1, by omega⟩
  have hgx : F64.gt (ent A p) x = false := by rw [hx]; exact F64.gt_self x
  have hlx : F64.lt (ent A p) x = false := by rw [hx]; exact F64.lt_self x
  obtain ⟨j1, e1, a1, a2, a3, a4⟩ := l210_spec A x g (r + 1) p hp0 (by omega) (by omega)
    hgx (by omega)
  obtain ⟨i1, e2, b1, b2, b3, b4⟩ := l220_spec A x g (p - 1) p (by omega) (by omega) (by omega)
    hlx (by omega)
  have hi1 : i1 = p := by omega
  subst hi1
  rw [l200, e1]
  simp only [Run.ok_bind]
  rw [e2]
  simp only [Run.ok_bind]
  by_cases hc : i1 < j1
  · rw [if_pos hc, exchange_ok A i1 j1 (by omega) (by omega) (by omega) (by omega)]
    simp only [Run.ok_bind]
    have hent := fun t ht => ent_swapped A i1 j1 t (by omega) (by omega) (by omega) (by omega) ht
    obtain ⟨A', j', e3, c1, c2, c3, c4, c5⟩ := l200_resume g x i1 r f (swapped A i1 j1) i1 j1
      hp0 (by rw [swapped_length]; exact hr) (by rw [swapped_length]; exact hg)
      (le_refl _) hc (by omega) (by omega)
      (by
        intro t h1 h2
        have : t = i1 := by omega
        rw [hent t (by omega), if_neg (by omega), if_pos this]
        exact a3)
      (by
        intro t h1 h2
        rw [hent t (by omega)]
        by_cases e : t = j1
        · rw [if_pos e]; exact b3
        · rw [if_neg e, if_neg (by omega)]
          exact F64.lt_false_of_gt (a4 t (by omega) (by omega)))
    exact ⟨A', j', e3, c1, by omega,
      (Shuffle_swapped i1 r i1 j1 A hp0 hr (by omega) (by omega) (by omega) (by omega)).trans c3,
      c4, c5⟩
  · rw [if_neg hc]
    have hj1 : j1 = i1 := by omega
    subst hj1
    refine ⟨A, j1, rfl, le_refl _, hpr, Shuffle.refl j1 r A, ?_, ?_⟩
    · intro t h1 h2
      have : t = j1 := by omega
      rw [this]; exact a3
    · intro t h1 h2
      exact F64.lt_false_of_gt (a4 t h1 (by omega))

theorem randomize_spec (p r : Int) (A : List F64) (rnd : Int) (hp0 : 0 ≤ p) (hpr : p ≤ r)
    (hr : r < A.length)
    (hq : r - p ≥ 8 → p ≤ pivotIndex (nextRnd rnd) p r ∧ pivotIndex (nextRnd rnd) p r ≤ r) :
    ∃ A', randomize p r A rnd = .ok (A', if r - p ≥ 8 then nextRnd rnd else rnd) ∧
      Shuffle p r A A' := by
  unfold randomize
  by_cases h : r - p ≥ 8
  · obtain ⟨q1, q2⟩ := hq h
    rw [if_pos h, if_pos h]
    simp only []
    rw [exchange_ok A p _ hp0 (by omega) (by omega) (by omega)]
    exact ⟨_, rfl, Shuffle_swapped p r p _ A hp0 hr (le_refl _) hpr q1 q2⟩
  · rw [if_neg h, if_neg h]
    exact ⟨A, rfl, Shuffle.refl p r A⟩

/-- One narrowing step: the range is split at some `j` with `p ≤ j < r`; when no entry of
`A[p..r]` is NaN, the entries of `p..j` are at most those of `j+1..r`. -/
theorem narrow_spec (g : Nat) (k p r : Int) (A : List F64) (rnd : Int) (hp0 : 0 ≤ p)
    (hpr : p < r) (hr : r < A.length) (hg : A.length ≤ g)
    (hq : r - p ≥ 8 → p ≤ pivotIndex (nextRnd rnd) p r ∧ pivotIndex (nextRnd rnd) p r ≤ r) :
    ∃ j A', narrow g k p r A rnd =
        .ok (if j < k then j + 1 else p, if j < k then r else j, A',
          if r - p ≥ 8 then nextRnd rnd else rnd) ∧
      p ≤ j ∧ j < r ∧ Shuffle p r A A' ∧
      (NumIn p r A →
        ∀ t u, p ≤ t → t ≤ j → j < u → u ≤ r → F64.le (ent A' t) (ent A' u) = true) := by
  obtain ⟨A1, e1, s1⟩ := randomize_spec p r A rnd hp0 (le_of_lt hpr) hr hq
  have hl1 : A1.length = A.length := s1.1
  obtain ⟨A2, j, e2, c1, c2, s2, c4, c5⟩ := l200_pass g (ent A1 p) p r g A1 hp0 hpr
    (by omega) (by omega) (by omega) rfl
  refine ⟨j, A2, ?_, c1, c2, s1.trans s2, ?_⟩
  · unfold narrow
    rw [e1]
    simp only [Run.ok_bind]
    rw [frd_ok hp0 (by omega)]
    simp only [Run.ok_bind]
    rw [e2]
    simp only [Run.ok_bind]
    by_cases hjk : j < k
    · simp only [if_pos hjk, Run.pure_eq]
    · simp only [if_neg hjk, Run.pure_eq]
  · intro hnum t u h1 h2 h3 h4
    have hn1 := NumIn_of_shuffle s1 hnum
    have hn2 := NumIn_of_shuffle s2 hn1
    have hx := hn1 p (le_refl _) (by omega)
    have ht := hn2 t h1 (by omega)
    have hu := hn2 u (by omega) h4
    rw [F64.le_iff_val ht hu]
    exact le_trans (F64.val_le_of_not_gt ht hx (c4 t h1 h2))
      (F64.val_le_of_not_lt hu hx (c5 u h3 h4))

/-! ## dordstat: the selection loop -/

theorem SelInv_narrow (n k p r j : Int) (A A' : List F64) (hinv : SelInv n (max k 1) p r A)
    (hj1 : p ≤ j) (hj2 : j < r) (hs : Shuffle p r A A')
    (hsplit : ∀ t u, p ≤ t → t ≤ j → j < u → u ≤ r → F64.le (ent A' t) (ent A' u) = true) :
    SelInv n (max k 1) (if j < k then j + 1 else p) (if j < k then r else j) A' := by
  obtain ⟨i1, i2, i3, i4, i5, inum, i6, i7⟩ := hinv
  have hnum' : NumIn 1 n A' :=
    NumIn_of_shuffle (hs.mono (by omega) i1 i4) inum
  obtain ⟨sl, _, sf, sw⟩ := hs
  have hkk : max k 1 = k ∨ (max k 1 = 1 ∧ k ≤ 1) := by
    rcases le_total k 1 with h | h
    · right; exact ⟨max_eq_right h, h⟩
    · left; exact max_eq_left h
  have key : ∀ a, 1 ≤ a → a ≤ n → a < p → ent A' a = ent A a := fun a h1 _ h3 =>
    sf a (by omega) (Or.inl h3)
  have key2 : ∀ b, r < b → b ≤ n → ent A' b = ent A b := fun b h1 _ =>
    sf b (by omega) (Or.inr h1)
  have low_all : ∀ a b, 1 ≤ a → a < p → p ≤ b → b ≤ n →
      F64.le (ent A' a) (ent A' b) = true := by
    intro a b h1 h2 h3 h4
    rw [key a h1 (by omega) h2]
    by_cases hb : b ≤ r
    · obtain ⟨u, hu1, hu2, hu3⟩ := sw b h3 hb
      rw [hu3]; exact i6 a u h1 h2 hu1 (by omega)
    · rw [key2 b (by omega) h4]; exact i6 a b h1 h2 h3 h4
  have high_all : ∀ a b, 1 ≤ a → a ≤ r → r < b → b ≤ n →
      F64.le (ent A' a) (ent A' b) = true := by
    intro a b h1 h2 h3 h4
    rw [key2 b h3 h4]
    by_cases ha : p ≤ a
    · obtain ⟨u, hu1, hu2, hu3⟩ := sw a ha h2
      rw [hu3]; exact i7 u b (by omega) hu2 h3 h4
    · rw [key a h1 (by omega) (by omega)]; exact i7 a b h1 h2 h3 h4
  by_cases hjk : j < k
  · rw [if_pos hjk, if_pos hjk]
    refine ⟨by omega, by omega, i3, i4, by omega, hnum', ?_, high_all⟩
    intro a b h1 h2 h3 h4
    by_cases ha : a < p
    · exact low_all a b h1 ha (by omega) h4
    · by_cases hb : b ≤ r
      · exact hsplit a b (by omega) (by omega) (by omega) hb
      · obtain ⟨u, hu1, hu2, hu3⟩ := sw a (by omega) (by omega)
        rw [hu3, key2 b (by omega) h4]
        exact i7 u b (by omega) hu2 (by omega) h4
  · rw [if_neg hjk, if_neg hjk]
    refine ⟨i1, i2, by omega, by omega, by omega, hnum', low_all, ?_⟩
    intro a b h1 h2 h3 h4
    by_cases hb : r < b
    · exact high_all a b h1 (by omega) hb h4
    · by_cases ha : p ≤ a
      · exact hsplit a b ha h2 h3 (by omega)
      · obtain ⟨u, hu1, hu2, hu3⟩ := sw b (by omega) (by omega)
        rw [hu3, key a h1 (by omega) (by omega)]
        exact i6 a u h1 (by omega) hu1 (by omega)

/-- The selection loop: with every drawn pivot inside its range and no NaN among the
entries `A[1..n]`, the loop returns with the range collapsed onto the rank. -/
theorem l100_spec (g : Nat) (n k : Int) (f : Nat) (p r : Int) (m : Mem)
    (hg : m.A.length ≤ g) (hf : r - p + 1 ≤ f)
    (hinv : SelInv n (max k 1) p r m.A)
    (hdraw : drawsInRange g k f p r m.A m.rnd = true) :
    ∃ m', l100 g k f p r m = .ok m' ∧ m'.info = 0 ∧ m'.kth = ent m'.A (max k 1) ∧
      Shuffle p r m.A m'.A ∧ SelInv n (max k 1) (max k 1) (max k 1) m'.A := by
  induction f generalizing p r m with
  | zero => obtain ⟨i1, i2, i3, _⟩ := hinv; omega
  | succ f ih =>
    rw [l100]
    by_cases hpr : p = r
    · subst hpr
      obtain ⟨i1, i2, i3, i4, i5, inum, i6, i7⟩ := hinv
      have hkk : max k 1 = p := by omega
      simp only [beq_self_eq_true, if_true]
      rw [frd_ok (by omega) (by omega)]
      refine ⟨_, rfl, rfl, by simp [hkk], Shuffle.refl _ _ _, ?_⟩
      rw [hkk]
      exact ⟨i1, le_refl _, le_refl _, i4, i5, inum, i6, i7⟩
    · have hne : (p == r) = false := by simpa using hpr
      rw [hne]
      simp only [Bool.false_eq_true, if_false]
      have hinv' := hinv
      obtain ⟨i1, i2, i3, i4, i5, inum, i6, i7⟩ := hinv
      rw [drawsInRange, hne] at hdraw
      simp only [Bool.false_eq_true, if_false, Bool.and_eq_true, decide_eq_true_eq] at hdraw
      obtain ⟨hq, hrest⟩ := hdraw
      obtain ⟨j, A', e, c1, c2, s, c3⟩ := narrow_spec g k p r m.A m.rnd (by omega) (by omega)
        (by omega) hg hq
      rw [e] at hrest
      simp only [] at hrest
      rw [e]
      simp only [Run.ok_bind]
      have hnum : NumIn p r m.A := fun t h1 h2 => inum t (by omega) (by omega)
      have hnew := SelInv_narrow n k p r j m.A A' hinv' c1 c2 s (c3 hnum)
      obtain ⟨m', e', d1, d2, d3, d4⟩ := ih (if j < k then j + 1 else p) (if j < k then r else j)
        { m with A := A', rnd := if r - p ≥ 8 then nextRnd m.rnd else m.rnd }
        (by simp only []; rw [s.1]; exact hg)
        (by split <;> omega) hnew hrest
      refine ⟨m', e', d1, d2, ?_, d4⟩
      exact s.trans (d3.mono (by omega) (by split <;> omega) (by split <;> omega))

/-- Selection: with each drawn pivot in range and no NaN among `A[1..n]`, `dordstat`
returns the entry that ends at position `max k 1`, with the slice arranged around it. -/
theorem dordstat_spec (fuel : Nat) (n k : Int) (m : Mem) (hn : 1 ≤ n) (hk0 : 0 ≤ k)
    (hkn : k ≤ n) (hlen : n < m.A.length) (hfuel : m.A.length ≤ fuel)
    (hnum : NumIn 1 n m.A) (hdraw : pivotsInRange fuel n k m = true) :
    ∃ m', dordstat fuel n k m = .ok m' ∧ m'.info = 0 ∧ m'.kth = ent m'.A (max k 1) ∧
      Shuffle 1 n m.A m'.A ∧ SelInv n (max k 1) (max k 1) (max k 1) m'.A := by
  have hguard : ¬ (k < 0 ∨ k > n) := by omega
  unfold dordstat
  rw [if_neg hguard]
  exact l100_spec fuel n k fuel 1 n m hfuel (by omega)
    ⟨le_refl _, by omega, by omega, le_refl _, hlen, hnum, fun a b h1 h2 => by omega,
      fun a b h1 h2 h3 h4 => by omega⟩ hdraw

/-- For ranges of fewer than 9 entries no pivot is drawn, so the ghost check holds. -/
theorem drawsInRange_of_small (g : Nat) (k : Int) (f : Nat) (p r : Int) (A : List F64)
    (rnd : Int) (hp : 0 ≤ p) (hpr : p ≤ r) (hsmall : r - p < 8) (hr : r < A.length)
    (hg : A.length ≤ g) : drawsInRange g k f p r A rnd = true := by
  induction f generalizing p r A rnd with
  | zero => rfl
  | succ f ih =>
    rw [drawsInRange]
    by_cases hpr' : p = r
    · simp [hpr']
    · have hne : (p == r) = false := by simpa using hpr'
      rw [hne]
      simp only [Bool.false_eq_true, if_false, Bool.and_eq_true, decide_eq_true_eq]
      have hq : r - p ≥ 8 →
          p ≤ pivotIndex (nextRnd rnd) p r ∧ pivotIndex (nextRnd rnd) p r ≤ r := by
        intro h; omega
      refine ⟨hq, ?_⟩
      obtain ⟨j, A', e, c1, c2, s, _⟩ := narrow_spec g k p r A rnd hp (by omega) hr hg hq
      rw [e]
      simp only []
      exact ih _ _ A' _ (by split <;> omega) (by split <;> omega) (by split <;> omega)
        (by rw [s.1]; split <;> omega) (by rw [s.1]; exact hg)

theorem pivotsInRange_of_small (fuel : Nat) (n k : Int) (m : Mem) (hn : 1 ≤ n) (hn8 : n ≤ 8)
    (hlen : n < m.A.length) (hfuel : m.A.length ≤ fuel) :
    pivotsInRange fuel n k m = true :=
  drawsInRange_of_small fuel k fuel 1 n m.A m.rnd (by omega) hn (by omega) hlen hfuel

/-- On this entry state the first draw of a nine-entry range leaves the range,
so the call stops in a panic whatever the budget. -/
theorem dordstat_sixth_draw (fuel : Nat) (k : Int) (hk : 0 ≤ k ∧ k ≤ 9) :
    dordstat (fuel + 1) 9 k ⟨[0, 5, 1, 4, 2, 8, 3, 3, 9, 7], 0, 0, 525748964106560795⟩
      = .panic := by
  have hguard : ¬ (k < 0 ∨ k > 9) := by omega
  have hr : randomize 1 9 [0, 5, 1, 4, 2, 8, 3, 3, 9, 7] 525748964106560795 = .panic := by
    decide
  unfold dordstat
  rw [if_neg hguard, l100]
  have hne : ((1 : Int) == 9) = false := by decide
  rw [hne]
  simp only [Bool.false_eq_true, if_false]
  unfold narrow
  rw [hr]
  rfl

/-! ## dordstat: the selected entry among the sorted entries -/

theorem insertionSort_split (l1 l2 : List Int) (v : Int) (h1 : ∀ a ∈ l1, a ≤ v)
    (h2 : ∀ b ∈ l2, v ≤ b) :
    (l1 ++ v :: l2).insertionSort (· ≤ ·)
      = l1.insertionSort (· ≤ ·) ++ v :: l2.insertionSort (· ≤ ·) := by
  apply List.eq_of_perm_of_sorted (r := (· ≤ ·))
  · exact (List.perm_insertionSort _ _).trans
      (List.Perm.append (List.perm_insertionSort _ l1).symm
        (List.Perm.cons v (List.perm_insertionSort _ l2).symm))
  · exact List.sorted_insertionSort _ _
  · have m1 : ∀ a, a ∈ l1.insertionSort (· ≤ ·) → a ∈ l1 :=
      fun a ha => (List.perm_insertionSort _ l1).mem_iff.1 ha
    have m2 : ∀ b, b ∈ l2.insertionSort (· ≤ ·) → b ∈ l2 :=
      fun b hb => (List.perm_insertionSort _ l2).mem_iff.1 hb
    unfold List.Sorted
    rw [List.pairwise_append]
    refine ⟨List.sorted_insertionSort _ _, ?_, ?_⟩
    · rw [List.pairwise_cons]
      exact ⟨fun b hb => h2 b (m2 b hb), List.sorted_insertionSort _ _⟩
    · intro a ha b hb
      rw [List.mem_cons] at hb
      rcases hb with hb | hb
      · rw [hb]; exact h1 a (m1 a ha)
      · exact le_trans (h1 a (m1 a ha)) (h2 b (m2 b hb))

theorem insertionSort_split_get (l1 l2 : List Int) (v : Int) (h1 : ∀ a ∈ l1, a ≤ v)
    (h2 : ∀ b ∈ l2, v ≤ b) :
    ((l1 ++ v :: l2).insertionSort (· ≤ ·))[l1.length]? = some v := by
  rw [insertionSort_split l1 l2 v h1 h2, List.getElem?_append_right (by simp)]
  simp

/-- In a list of numbers arranged around position `c`, the entry at `c` is the one that
sorting puts there. -/
theorem sorted_at_of_arranged (L : List Int) (e : Int → Int) (n : Nat) (c : Int)
    (hc1 : 1 ≤ c) (hcn : c ≤ n) (hlen : L.length = n)
    (hget : ∀ i : Nat, i < n → L[i]? = some (e ((i : Int) + 1)))
    (hlo : ∀ a : Int, 1 ≤ a → a < c → e a ≤ e c)
    (hhi : ∀ b : Int, c < b → b ≤ n → e c ≤ e b) :
    nth1 (L.insertionSort (· ≤ ·)) c = some (e c) := by
  obtain ⟨d, rfl⟩ : ∃ d : Nat, c = (d : Int) + 1 := ⟨(c - 1).toNat, by omega⟩
  have hd : d < L.length := by omega
  have hsplit : L = L.take d ++ e ((d : Int) + 1) :: L.drop (d + 1) := by
    conv_lhs => rw [← List.take_append_drop d L]
    congr 1
    rw [List.drop_eq_getElem_cons hd]
    congr 1
    have := hget d (by omega)
    rw [List.getElem?_eq_getElem hd] at this
    exact Option.some.inj this
  have hl1 : (L.take d).length = d := by
    rw [List.length_take]; omega
  have h1 : ∀ a ∈ L.take d, a ≤ e ((d : Int) + 1) := by
    intro a ha
    obtain ⟨i, hi⟩ := List.mem_iff_getElem?.1 ha
    have hid : i < d := by
      by_contra hcon
      rw [List.getElem?_eq_none (by omega)] at hi
      exact Option.noConfusion hi
    rw [List.getElem?_take_of_lt hid, hget i (by omega)] at hi
    rw [← Option.some.inj hi]
    exact hlo _ (by omega) (by omega)
  have h2 : ∀ b ∈ L.drop (d + 1), e ((d : Int) + 1) ≤ b := by
    intro b hb
    obtain ⟨i, hi⟩ := List.mem_iff_getElem?.1 hb
    rw [List.getElem?_drop] at hi
    have hin : d + 1 + i < n := by
      by_contra hcon
      rw [List.getElem?_eq_none (by omega)] at hi
      exact Option.noConfusion hi
    rw [hget _ hin] at hi
    rw [← Option.some.inj hi]
    exact hhi _ (by push_cast; omega) (by push_cast; omega)
  have := insertionSort_split_get _ _ _ h1 h2
  rw [← hsplit, hl1] at this
  unfold nth1
  rw [if_pos hc1]
  have e' : ((d : Int) + 1 - 1).toNat = d := by omega
  rw [e']
  exact this

theorem orderedInsert_map_num (a : Int) (L : List Int) :
    (L.map F64.num).orderedInsert (fun a b => F64.le a b = true) (F64.num a)
      = (L.orderedInsert (· ≤ ·) a).map F64.num := by
  induction L with
  | nil => rfl
  | cons b L ih =>
    simp only [List.map_cons, List.orderedInsert]
    by_cases h : a ≤ b
    · rw [if_pos h, if_pos (by simpa [F64.le] using h)]
      rfl
    · rw [if_neg h, if_neg (by simpa [F64.le] using h), ih]
      rfl

/-- Sorting numbers as `float64` values is sorting them by their places in the order. -/
theorem insertionSort_map_num (L : List Int) :
    (L.map F64.num).insertionSort (fun a b => F64.le a b = true)
      = (L.insertionSort (· ≤ ·)).map F64.num := by
  induction L with
  | nil => rfl
  | cons a L ih =>
    simp only [List.map_cons, List.insertionSort]
    rw [ih, orderedInsert_map_num]

theorem map_num_val (l : List F64) (h : F64.nan ∉ l) : (l.map F64.val).map F64.num = l := by
  induction l with
  | nil => rfl
  | cons a l ih =>
    simp only [List.mem_cons, not_or] at h
    simp only [List.map_cons]
    rw [ih h.2, ← F64.eq_num_val (fun e => h.1 e.symm)]

theorem nth1_map {α β : Type} (f : α → β) (l : List α) (k : Int) :
    nth1 (l.map f) k = (nth1 l k).map f := by
  unfold nth1
  split
  · rw [List.getElem?_map]
  · rfl

theorem entries_get (A : List F64) (n i : Nat) (hi : i < n) (hn : n < A.length) :
    (entries A n)[i]? = some (ent A ((i : Int) + 1)) := by
  unfold entries ent
  rw [List.getElem?_take_of_lt hi, List.getElem?_drop]
  have e : ((i : Int) + 1).toNat = 1 + i := by omega
  rw [e, List.getD_eq_getElem?_getD, List.getElem?_eq_getElem (by omega)]
  rfl

theorem entries_length (A : List F64) (n : Nat) (hn : n < A.length) :
    (entries A n).length = n := by
  unfold entries
  rw [List.length_take, List.length_drop]
  omega

theorem NumIn_of_entries (A : List F64) (n : Nat) (hn : n < A.length)
    (h : F64.nan ∉ entries A n) : NumIn 1 n A := by
  intro t h1 h2 hnan
  apply h
  rw [List.mem_iff_getElem?]
  refine ⟨(t - 1).toNat, ?_⟩
  rw [entries_get A n _ (by omega) hn]
  have : (((t - 1).toNat : Nat) : Int) + 1 = t := by omega
  rw [this, hnan]

theorem entries_perm_of_shuffle (A A' : List F64) (n : Nat)
    (hs : Shuffle 1 n A A') : (entries A' n).Perm (entries A n) := by
  obtain ⟨hl, hp, hf, _⟩ := hs
  have hdecomp : ∀ B : List F64, B = B.take 1 ++ (entries B n ++ B.drop (1 + n)) := by
    intro B
    unfold entries
    rw [← List.drop_drop, List.take_append_drop, List.take_append_drop]
  have hget : ∀ (B : List F64) (t : Nat), t < B.length → B[t]? = some (ent B (t : Int)) := by
    intro B t ht
    unfold ent
    rw [Int.toNat_ofNat, List.getD_eq_getElem?_getD, List.getElem?_eq_getElem ht]
    rfl
  have hsame : ∀ t : Nat, (t < 1 ∨ n < t) → A'[t]? = A[t]? := by
    intro t ht
    by_cases hlt : t < A.length
    · rw [hget A t hlt, hget A' t (by omega), hf t (by omega) (by omega)]
    · rw [List.getElem?_eq_none (by omega), List.getElem?_eq_none (by omega)]
  have e1 : A'.take 1 = A.take 1 := by
    apply List.ext_getElem?
    intro t
    rw [List.getElem?_take, List.getElem?_take]
    split
    · exact hsame t (by omega)
    · rfl
  have e2 : A'.drop (1 + n) = A.drop (1 + n) := by
    apply List.ext_getElem?
    intro t
    rw [List.getElem?_drop, List.getElem?_drop]
    exact hsame _ (by omega)
  rw [hdecomp A, hdecomp A', e1, e2, List.perm_append_left_iff, List.perm_append_right_iff] at hp
  exact hp

/-- An entry that sits at position `c` of a slice arranged around `c` is the element at
position `c` of the sorted entries of any rearrangement of `A[1..n]` without NaN. -/
theorem sortedEntries_at (A A' : List F64) (n : Nat) (c : Int) (hc1 : 1 ≤ c) (hcn : c ≤ n)
    (hn : n < A.length) (hs : Shuffle 1 n A A') (hnum : F64.nan ∉ entries A n)
    (hlo : ∀ a : Int, 1 ≤ a → a < c → F64.le (ent A' a) (ent A' c) = true)
    (hhi : ∀ b : Int, c < b → b ≤ n → F64.le (ent A' c) (ent A' b) = true) :
    nth1 (sortedEntries n A) c = some (ent A' c) := by
  have hn' : n < A'.length := by rw [hs.1]; exact hn
  have hperm := entries_perm_of_shuffle A A' n hs
  have hnum' : F64.nan ∉ entries A' n := fun h => hnum (hperm.mem_iff.1 h)
  have hN := NumIn_of_entries A' n hn' hnum'
  have hsort : (List.map F64.val (entries A n)).insertionSort (· ≤ ·)
      = (List.map F64.val (entries A' n)).insertionSort (· ≤ ·) := by
    apply List.eq_of_perm_of_sorted (r := (· ≤ ·))
    · exact (List.perm_insertionSort _ _).trans
        ((hperm.map F64.val).symm.trans (List.perm_insertionSort _ _).symm)
    · exact List.sorted_insertionSort _ _
    · exact List.sorted_insertionSort _ _
  unfold sortedEntries
  rw [Int.toNat_ofNat]
  conv_lhs => rw [← map_num_val (entries A n) hnum]
  rw [insertionSort_map_num, nth1_map, hsort,
    sorted_at_of_arranged (List.map F64.val (entries A' n)) (fun t => (ent A' t).val) n c hc1
      hcn (by rw [List.length_map, entries_length A' n hn'])
      (by
        intro i hi
        rw [List.getElem?_map, entries_get A' n i hi hn']
        rfl)
      (by
        intro a h1 h2
        exact (F64.le_iff_val (hN a h1 (by omega)) (hN c hc1 hcn)).1 (hlo a h1 h2))
      (by
        intro b h1 h2
        exact (F64.le_iff_val (hN c hc1 hcn) (hN b (by omega) h2)).1 (hhi b h1 h2))]
  simp only [Option.map_some']
  rw [← F64.eq_num_val (hN c hc1 hcn)]

/-! ## dordstat: what a returning run tells -/

/-- What a returning downward scan tells, whatever the budget and the entries. -/
theorem l210_ok (A : List F64) (x : F64) (g : Nat) (j j' : Int)
    (h : l210 A x g j = .ok j') :
    0 ≤ j' ∧ j' < j ∧ j' < A.length ∧ F64.gt (ent A j') x = false ∧
      ∀ s, 0 ≤ s → s < j → F64.gt (ent A s) x = false → s ≤ j' := by
  induction g generalizing j with
  | zero => exact Run.noConfusion h
  | succ g ih =>
    rw [l210] at h
    rcases hr : frd A (j - 1) with v | _ | _
    · obtain ⟨h0, h1, hv⟩ := frd_eq_ok hr
      rw [hr] at h
      simp only [Run.ok_bind] at h
      by_cases hgt : F64.gt v x = true
      · rw [if_pos hgt] at h
        obtain ⟨a1, a2, a3, a4, a5⟩ := ih (j - 1) h
        refine ⟨a1, by omega, a3, a4, ?_⟩
        intro s hs0 hsj hsx
        have hne : s ≠ j - 1 := by
          intro e; rw [e, ← hv, hgt] at hsx; exact Bool.noConfusion hsx
        exact a5 s hs0 (by omega) hsx
      · rw [if_neg hgt] at h
        have e : j - 1 = j' := Run.ok.inj h
        subst e
        refine ⟨h0, by omega, h1, by rw [← hv]; simpa using hgt, ?_⟩
        intro s _ hsj _
        omega
    · rw [hr] at h; exact Run.noConfusion h
    · rw [hr] at h; exact Run.noConfusion h

/-- What a returning upward scan tells, whatever the budget and the entries. -/
theorem l220_ok (A : List F64) (x : F64) (g : Nat) (i i' : Int)
    (h : l220 A x g i = .ok i') :
    i < i' ∧ 0 ≤ i' ∧ i' < A.length ∧ F64.lt (ent A i') x = false ∧
      ∀ s, i < s → s < A.length → F64.lt (ent A s) x = false → i' ≤ s := by
  induction g generalizing i with
  | zero => exact Run.noConfusion h
  | succ g ih =>
    rw [l220] at h
    rcases hr : frd A (i + 1) with v | _ | _
    · obtain ⟨h0, h1, hv⟩ := frd_eq_ok hr
      rw [hr] at h
      simp only [Run.ok_bind] at h
      by_cases hlt : F64.lt v x = true
      · rw [if_pos hlt] at h
        obtain ⟨a1, a2, a3, a4, a5⟩ := ih (i + 1) h
        refine ⟨by omega, a2, a3, a4, ?_⟩
        intro s hs0 hsj hsx
        have hne : s ≠ i + 1 := by
          intro e; rw [e, ← hv, hlt] at hsx; exact Bool.noConfusion hsx
        exact a5 s (by omega) hsj hsx
      · rw [if_neg hlt] at h
        have e : i + 1 = i' := Run.ok.inj h
        subst e
        refine ⟨by omega, h0, h1, by rw [← hv]; simpa using hlt, ?_⟩
        intro s hs _ _
        omega
    · rw [hr] at h; exact Run.noConfusion h
    · rw [hr] at h; exact Run.noConfusion h

/-- A returning pass ends below the index it started the downward scan from. -/
theorem l200_ok_bounds (g : Nat) (x : F64) (f : Nat) (A A' : List F64) (i j j' : Int)
    (h : l200 g x f A i j = .ok (A', j')) : 0 ≤ j' ∧ j' < j := by
  induction f generalizing A i j with
  | zero => exact Run.noConfusion h
  | succ f ih =>
    rw [l200] at h
    rcases h1 : l210 A x g j with j1 | _ | _
    · obtain ⟨a1, a2, _⟩ := l210_ok A x g j j1 h1
      rw [h1] at h
      simp only [Run.ok_bind] at h
      rcases h2 : l220 A x g i with i1 | _ | _
      · rw [h2] at h
        simp only [Run.ok_bind] at h
        by_cases hc : i1 < j1
        · rw [if_pos hc] at h
          rcases h3 : exchange A i1 j1 with A1 | _ | _
          · rw [h3] at h
            simp only [Run.ok_bind] at h
            have := ih A1 i1 j1 h
            omega
          · rw [h3] at h; exact Run.noConfusion h
          · rw [h3] at h; exact Run.noConfusion h
        · rw [if_neg hc] at h
          have e := Run.ok.inj h
          have e2 : j1 = j' := congrArg Prod.snd e
          omega
      · rw [h2] at h; exact Run.noConfusion h
      · rw [h2] at h; exact Run.noConfusion h
    · rw [h1] at h; exact Run.noConfusion h
    · rw [h1] at h; exact Run.noConfusion h

/-- A returning pass resumed at `i < j` with `A[i]` not above `x` does not end below `i`. -/
theorem l200_ok_ge (g : Nat) (x : F64) (f : Nat) (A A' : List F64) (i j j' : Int)
    (hi0 : 0 ≤ i) (hij : i < j) (hix : F64.gt (ent A i) x = false)
    (h : l200 g x f A i j = .ok (A', j')) : i ≤ j' := by
  induction f generalizing A i j with
  | zero => exact Run.noConfusion h
  | succ f ih =>
    rw [l200] at h
    rcases h1 : l210 A x g j with j1 | _ | _
    · obtain ⟨a1, a2, a3, a4, a5⟩ := l210_ok A x g j j1 h1
      have hij1 : i ≤ j1 := a5 i hi0 hij hix
      rw [h1] at h
      simp only [Run.ok_bind] at h
      rcases h2 : l220 A x g i with i1 | _ | _
      · obtain ⟨b1, b2, b3, b4, _⟩ := l220_ok A x g i i1 h2
        rw [h2] at h
        simp only [Run.ok_bind] at h
        by_cases hc : i1 < j1
        · rw [if_pos hc, exchange_ok A i1 j1 b2 b3 a1 a3] at h
          simp only [Run.ok_bind] at h
          have hent : F64.gt (ent (swapped A i1 j1) i1) x = false := by
            rw [ent_swapped A i1 j1 i1 b2 b3 a1 a3 b2, if_neg (by omega), if_pos rfl]
            exact a4
          have := ih (swapped A i1 j1) i1 j1 b2 hc hent h
          omega
        · rw [if_neg hc] at h
          have e := Run.ok.inj h
          have e2 : j1 = j' := congrArg Prod.snd e
          omega
      · rw [h2] at h; exact Run.noConfusion h
      · rw [h2] at h; exact Run.noConfusion h
    · rw [h1] at h; exact Run.noConfusion h
    · rw [h1] at h; exact Run.noConfusion h

/-- A returning pass of the range `p..r` around `x = A[p]` ends at some `j ≥ p`. -/
theorem l200_ok_first (g : Nat) (x : F64) (p r : Int) (f : Nat) (A A' : List F64) (j' : Int)
    (hp0 : 0 ≤ p) (hpr : p ≤ r) (hx : ent A p = x)
    (h : l200 g x f A (p - 1) (r + 1) = .ok (A', j')) : p ≤ j' := by
  have hgx : F64.gt (ent A p) x = false := by rw [hx]; exact F64.gt_self x
  have hlx : F64.lt (ent A p) x = false := by rw [hx]; exact F64.lt_self x
  cases f with
  | zero => exact Run.noConfusion h
  | succ f =>
    rw [l200] at h
    rcases h1 : l210 A x g (r + 1) with j1 | _ | _
    · obtain ⟨a1, a2, a3, a4, a5⟩ := l210_ok A x g (r + 1) j1 h1
      have hpj1 : p ≤ j1 := a5 p hp0 (by omega) hgx
      rw [h1] at h
      simp only [Run.ok_bind] at h
      rcases h2 : l220 A x g (p - 1) with i1 | _ | _
      · obtain ⟨b1, b2, b3, b4, b5⟩ := l220_ok A x g (p - 1) i1 h2
        have hi1 : i1 = p := by
          have := b5 p (by omega) (by omega) hlx
          omega
        subst hi1
        rw [h2] at h
        simp only [Run.ok_bind] at h
        by_cases hc : i1 < j1
        · rw [if_pos hc, exchange_ok A i1 j1 b2 b3 a1 a3] at h
          simp only [Run.ok_bind] at h
          have hent : F64.gt (ent (swapped A i1 j1) i1) x = false := by
            rw [ent_swapped A i1 j1 i1 b2 b3 a1 a3 b2, if_neg (by omega), if_pos rfl]
            exact a4
          exact l200_ok_ge g x f (swapped A i1 j1) A' i1 j1 j' b2 hc hent h
        · rw [if_neg hc] at h
          have e := Run.ok.inj h
          have e2 : j1 = j' := congrArg Prod.snd e
          omega
      · rw [h2] at h; exact Run.noConfusion h
      · rw [h2] at h; exact Run.noConfusion h
    · rw [h1] at h; exact Run.noConfusion h
    · rw [h1] at h; exact Run.noConfusion h

/-! ## dordstat: rank 0 and rank 1 -/

/-- With `p = 1` the narrowing step does not tell rank 0 from rank 1. -/
theorem narrow_rank01 (g : Nat) (r : Int) (A : List F64) (rnd : Int) (hr : 1 ≤ r) :
    narrow g 0 1 r A rnd = narrow g 1 1 r A rnd ∧
    ∀ p' r' A' rnd', narrow g 0 1 r A rnd = .ok (p', r', A', rnd') → p' = 1 ∧ 1 ≤ r' := by
  unfold narrow
  rcases h1 : randomize 1 r A rnd with ⟨A1, rnd1⟩ | _ | _
  · simp only [Run.ok_bind]
    rcases h2 : frd A1 1 with x | _ | _
    · obtain ⟨_, _, hx⟩ := frd_eq_ok h2
      simp only [Run.ok_bind]
      rcases h3 : l200 g x g A1 (1 - 1) (r + 1) with ⟨A2, j⟩ | _ | _
      · have hj : 1 ≤ j := l200_ok_first g x 1 r g A1 A2 j (by omega) hr hx.symm h3
        simp only [Run.ok_bind]
        rw [if_neg (by omega), if_neg (by omega)]
        refine ⟨rfl, ?_⟩
        intro p' r' A' rnd' e
        have e' := Run.ok.inj e
        simp only [Run.pure_eq, Prod.mk.injEq] at e'
        omega
      · simp
      · simp
    · simp
    · simp
  · simp
  · simp

/-- The selection loop started at `p = 1` does not tell rank 0 from rank 1. -/
theorem l100_rank01 (g : Nat) (f : Nat) (r : Int) (m : Mem) (hr : 1 ≤ r) :
    l100 g 0 f 1 r m = l100 g 1 f 1 r m := by
  induction f generalizing r m with
  | zero => rfl
  | succ f ih =>
    rw [l100, l100]
    by_cases h : ((1 : Int) == r) = true
    · rw [if_pos h, if_pos h]
    · rw [if_neg h, if_neg h]
      obtain ⟨e, hb⟩ := narrow_rank01 g r m.A m.rnd hr
      rw [← e]
      rcases hn : narrow g 0 1 r m.A m.rnd with ⟨p', r', A', rnd'⟩ | _ | _
      · obtain ⟨hp, hr'⟩ := hb p' r' A' rnd' hn
        subst hp
        simp only [Run.ok_bind]
        exact ih r' _ hr'
      · rfl
      · rfl

theorem dordstat_rank01 (fuel : Nat) (n : Int) (m : Mem) (hn : 1 ≤ n) :
    dordstat fuel n 0 m = dordstat fuel n 1 m := by
  unfold dordstat
  rw [if_neg (by omega), if_neg (by omega)]
  exact l100_rank01 fuel fuel n m hn

/-! ## dordstat: ranges of fewer than 9 entries -/

theorem randomize_small (p r : Int) (A : List F64) (rnd : Int) (h : r - p + 1 < 9) :
    randomize p r A rnd = .ok (A, rnd) := by
  unfold randomize
  rw [if_neg (by omega)]
  rfl

theorem randomize_large (p r : Int) (A : List F64) (rnd : Int) (h : 9 ≤ r - p + 1) :
    randomize p r A rnd
      = exchange A p (pivotIndex (nextRnd rnd) p r) >>= fun A' => pure (A', nextRnd rnd) := by
  unfold randomize
  rw [if_pos (by omega)]

/-- On a range of fewer than 9 entries the narrowing step passes the generator state
through and is otherwise the same for every state. -/
theorem narrow_small (g : Nat) (k p r : Int) (A : List F64) (rnd1 rnd2 : Int)
    (h : r - p + 1 < 9) :
    narrow g k p r A rnd2
      = narrow g k p r A rnd1 >>= fun s => pure (s.1, s.2.1, s.2.2.1, rnd2) := by
  unfold narrow
  rw [randomize_small p r A rnd1 h, randomize_small p r A rnd2 h]
  simp only [Run.ok_bind]
  rcases h2 : frd A p with x | _ | _
  · simp only [Run.ok_bind]
    rcases h3 : l200 g x g A (p - 1) (r + 1) with ⟨A2, j⟩ | _ | _
    · simp only [Run.ok_bind]
      by_cases hjk : j < k
      · simp [hjk]
      · simp [hjk]
    · rfl
    · rfl
  · rfl
  · rfl

theorem narrow_ok_bounds (g : Nat) (k p r : Int) (A : List F64) (rnd : Int)
    (p' r' : Int) (A' : List F64) (rnd' : Int)
    (h : narrow g k p r A rnd = .ok (p', r', A', rnd')) (hp : 1 ≤ p) :
    1 ≤ p' ∧ r' ≤ r := by
  unfold narrow at h
  rcases h1 : randomize p r A rnd with ⟨A1, rnd1⟩ | _ | _
  · rw [h1] at h
    simp only [Run.ok_bind] at h
    rcases h2 : frd A1 p with x | _ | _
    · rw [h2] at h
      simp only [Run.ok_bind] at h
      rcases h3 : l200 g x g A1 (p - 1) (r + 1) with ⟨A2, j⟩ | _ | _
      · rw [h3] at h
        simp only [Run.ok_bind] at h
        obtain ⟨b1, b2⟩ := l200_ok_bounds g x g A1 A2 (p - 1) (r + 1) j h3
        by_cases hjk : j < k
        · rw [if_pos hjk] at h
          have e := Run.ok.inj h
          simp only [Prod.mk.injEq] at e
          omega
        · rw [if_neg hjk] at h
          have e := Run.ok.inj h
          simp only [Prod.mk.injEq] at e
          omega
      · rw [h3] at h; exact Run.noConfusion h
      · rw [h3] at h; exact Run.noConfusion h
    · rw [h2] at h; exact Run.noConfusion h
    · rw [h2] at h; exact Run.noConfusion h
  · rw [h1] at h; exact Run.noConfusion h
  · rw [h1] at h; exact Run.noConfusion h

/-- While `1 ≤ p` and `r ≤ 8` the selection loop never draws: its outcome for one
generator state is its outcome for any other, with the state passed through. -/
theorem l100_small (g : Nat) (k : Int) (f : Nat) (p r : Int) (A : List F64) (kth : F64)
    (info rnd1 rnd2 : Int) (hp : 1 ≤ p) (hr : r ≤ 8) :
    l100 g k f p r ⟨A, kth, info, rnd2⟩
      = l100 g k f p r ⟨A, kth, info, rnd1⟩ >>= fun m' => pure { m' with rnd := rnd2 } := by
  induction f generalizing p r A with
  | zero => rfl
  | succ f ih =>
    rw [l100, l100]
    by_cases h : (p == r) = true
    · rw [if_pos h, if_pos h]
      simp only []
      rcases h2 : frd A p with v | _ | _
      · rfl
      · rfl
      · rfl
    · rw [if_neg h, if_neg h]
      simp only []
      rw [narrow_small g k p r A rnd1 rnd2 (by omega)]
      rcases hn : narrow g k p r A rnd1 with ⟨p', r', A', rnd'⟩ | _ | _
      · obtain ⟨c1, c2⟩ := narrow_ok_bounds g k p r A rnd1 p' r' A' rnd' hn hp
        have hrnd : rnd' = rnd1 := by
          have := narrow_small g k p r A rnd1 rnd1 (by omega)
          rw [hn] at this
          have e := Run.ok.inj this
          simp only [Prod.mk.injEq] at e
          exact e.2.2.2
        simp only [Run.ok_bind, Run.pure_eq]
        rw [hrnd]
        exact ih p' r' A' c1 (by omega)
      · rfl
      · rfl

theorem dordstat_small (fuel : Nat) (n k : Int) (A : List F64) (kth : F64)
    (info rnd1 rnd2 : Int) (hn : n ≤ 8) :
    dordstat fuel n k ⟨A, kth, info, rnd2⟩
      = dordstat fuel n k ⟨A, kth, info, rnd1⟩ >>= fun m' => pure { m' with rnd := rnd2 } := by
  unfold dordstat
  by_cases hg : k < 0 ∨ k > n
  · rw [if_pos hg, if_pos hg]
    rfl
  · rw [if_neg hg, if_neg hg]
    exact l100_small fuel k fuel 1 n A kth info rnd1 rnd2 (le_refl _) hn

theorem dordstat_small_rnd (fuel : Nat) (n k : Int) (m m' : Mem) (hn : n ≤ 8)
    (h : dordstat fuel n k m = .ok m') : m'.rnd = m.rnd := by
  have := dordstat_small fuel n k m.A m.kth m.info m.rnd m.rnd hn
  rw [h] at this
  have e := Run.ok.inj this
  simp only [Run.pure_eq] at e
  rw [e]

/-! ## dordstat: the partition pass makes no access outside its range -/

theorem rdIn_eq (lo hi : Int) (A : List F64) (i : Int) (h1 : lo ≤ i) (h2 : i ≤ hi) :
    rdIn lo hi A i = frd A i := by
  unfold rdIn
  rw [if_pos ⟨h1, h2⟩]

theorem wrIn_eq (lo hi : Int) (A : List F64) (i : Int) (v : F64) (h1 : lo ≤ i)
    (h2 : i ≤ hi) : wrIn lo hi A i v = fwr A i v := by
  unfold wrIn
  rw [if_pos ⟨h1, h2⟩]

theorem exchangeIn_eq (lo hi : Int) (A : List F64) (i j : Int) (hi1 : lo ≤ i) (hi2 : i ≤ hi)
    (hj1 : lo ≤ j) (hj2 : j ≤ hi) : exchangeIn lo hi A i j = exchange A i j := by
  unfold exchangeIn exchange
  rw [rdIn_eq lo hi A i hi1 hi2, rdIn_eq lo hi A j hj1 hj2]
  simp only [wrIn_eq lo hi _ i _ hi1 hi2, wrIn_eq lo hi _ j _ hj1 hj2]

/-- A downward scan that has a sentinel inside `lo..hi` makes no access outside. -/
theorem l210In_eq (lo hi : Int) (A : List F64) (x : F64) (g : Nat) (j s : Int)
    (hs0 : 0 ≤ s) (hlo : lo ≤ s) (hsj : s < j) (hjhi : j ≤ hi + 1) (hj : j ≤ A.length)
    (hsx : F64.gt (ent A s) x = false) : l210In lo hi A x g j = l210 A x g j := by
  induction g generalizing j with
  | zero => rfl
  | succ g ih =>
    rw [l210In, l210, rdIn_eq lo hi A (j - 1) (by omega) (by omega),
      frd_ok (by omega) (by omega)]
    simp only [Run.ok_bind]
    by_cases hgt : F64.gt (ent A (j - 1)) x = true
    · rw [if_pos hgt, if_pos hgt]
      have hne : s ≠ j - 1 := by
        intro h; rw [← h, hsx] at hgt; exact Bool.noConfusion hgt
      exact ih (j - 1) (by omega) (by omega) (by omega)
    · rw [if_neg hgt, if_neg hgt]

/-- An upward scan that has a sentinel inside `lo..hi` makes no access outside. -/
theorem l220In_eq (lo hi : Int) (A : List F64) (x : F64) (g : Nat) (i s : Int)
    (hi0 : -1 ≤ i) (hlo : lo ≤ i + 1) (his : i < s) (hshi : s ≤ hi) (hs : s < A.length)
    (hsx : F64.lt (ent A s) x = false) : l220In lo hi A x g i = l220 A x g i := by
  induction g generalizing i with
  | zero => rfl
  | succ g ih =>
    rw [l220In, l220, rdIn_eq lo hi A (i + 1) (by omega) (by omega),
      frd_ok (by omega) (by omega)]
    simp only [Run.ok_bind]
    by_cases hlt : F64.lt (ent A (i + 1)) x = true
    · rw [if_pos hlt, if_pos hlt]
      have hne : s ≠ i + 1 := by
        intro h; rw [← h, hsx] at hlt; exact Bool.noConfusion hlt
      exact ih (i + 1) (by omega) (by omega) (by omega)
    · rw [if_neg hlt, if_neg hlt]

/-- A resumed pass of the range `p..r` makes no access outside `A[p..r]`. -/
theorem l200In_resume_eq (g : Nat) (x : F64) (p r : Int) (f : Nat) (A : List F64) (i j : Int)
    (hp0 : 0 ≤ p) (hr : r < A.length) (hpi : p ≤ i) (hij : i < j) (hjr : j ≤ r)
    (hix : F64.gt (ent A i) x = false) (hjx : F64.lt (ent A j) x = false) :
    l200In p r g x f A i j = l200 g x f A i j := by
  induction f generalizing A i j with
  | zero => rfl
  | succ f ih =>
    rw [l200In, l200, l210In_eq p r A x g j i (by omega) hpi hij (by omega) (by omega) hix,
      l220In_eq p r A x g i j (by omega) (by omega) hij hjr (by omega) hjx]
    rcases h1 : l210 A x g j with j1 | _ | _
    · obtain ⟨a1, a2, a3, a4, a5⟩ := l210_ok A x g j j1 h1
      have hij1 : i ≤ j1 := a5 i (by omega) hij hix
      simp only [Run.ok_bind]
      rcases h2 : l220 A x g i with i1 | _ | _
      · obtain ⟨b1, b2, b3, b4, b5⟩ := l220_ok A x g i i1 h2
        have hi1j : i1 ≤ j := b5 j hij (by omega) hjx
        simp only [Run.ok_bind]
        by_cases hc : i1 < j1
        · rw [if_pos hc, if_pos hc,
            exchangeIn_eq p r A i1 j1 (by omega) (by omega) (by omega) (by omega),
            exchange_ok A i1 j1 b2 b3 a1 a3]
          simp only [Run.ok_bind]
          have hent := fun t ht => ent_swapped A i1 j1 t b2 b3 a1 a3 ht
          exact ih (swapped A i1 j1) i1 j1 (by rw [swapped_length]; exact hr) (by omega) hc
            (by omega)
            (by rw [hent i1 b2, if_neg (by omega), if_pos rfl]; exact a4)
            (by rw [hent j1 a1, if_pos rfl]; exact b4)
        · rw [if_neg hc, if_neg hc]
      · rfl
      · rfl
    · rfl
    · rfl

/-- A whole pass of the range `p..r` around `x = A[p]` makes no access outside
`A[p..r]`. -/
theorem l200In_pass_eq (g : Nat) (x : F64) (p r : Int) (f : Nat) (A : List F64)
    (hp0 : 0 ≤ p) (hpr : p ≤ r) (hr : r < A.length) (hx : ent A p = x) :
    l200In p r g x f A (p - 1) (r + 1) = l200 g x f A (p - 1) (r + 1) := by
  have hgx : F64.gt (ent A p) x = false := by rw [hx]; exact F64.gt_self x
  have hlx : F64.lt (ent A p) x = false := by rw [hx]; exact F64.lt_self x
  cases f with
  | zero => rfl
  | succ f =>
    rw [l200In, l200,
      l210In_eq p r A x g (r + 1) p hp0 (le_refl _) (by omega) (le_refl _) (by omega) hgx,
      l220In_eq p r A x g (p - 1) p (by omega) (by omega) (by omega) hpr (by omega) hlx]
    rcases h1 : l210 A x g (r + 1) with j1 | _ | _
    · obtain ⟨a1, a2, a3, a4, a5⟩ := l210_ok A x g (r + 1) j1 h1
      have hpj1 : p ≤ j1 := a5 p hp0 (by omega) hgx
      simp only [Run.ok_bind]
      rcases h2 : l220 A x g (p - 1) with i1 | _ | _
      · obtain ⟨b1, b2, b3, b4, b5⟩ := l220_ok A x g (p - 1) i1 h2
        have hi1 : i1 = p := by
          have := b5 p (by omega) (by omega) hlx
          omega
        subst hi1
        simp only [Run.ok_bind]
        by_cases hc : i1 < j1
        · rw [if_pos hc, if_pos hc,
            exchangeIn_eq i1 r A i1 j1 (le_refl _) (by omega) (by omega) (by omega),
            exchange_ok A i1 j1 b2 b3 a1 a3]
          simp only [Run.ok_bind]
          have hent := fun t ht => ent_swapped A i1 j1 t b2 b3 a1 a3 ht
          exact l200In_resume_eq g x i1 r f (swapped A i1 j1) i1 j1 hp0
            (by rw [swapped_length]; exact hr) (le_refl _) hc (by omega)
            (by rw [hent i1 b2, if_neg (by omega), if_pos rfl]; exact a4)
            (by rw [hent j1 a1, if_pos rfl]; exact b4)
        · rw [if_neg hc, if_neg hc]
      · rfl
      · rfl
    · rfl
    · rfl

/-! ## dordstat: the empty range -/

/-- With `n = 0`, `k = 0` and `A[0] ≤ A[1]` one trip through the loop changes nothing. -/
theorem narrow_empty_range (g : Nat) (rnd : Int) :
    narrow (g + 1) 0 1 0 [0, 5] rnd = .ok (1, 0, [0, 5], rnd) := by
  rfl

theorem l100_empty_range (g f : Nat) (m : Mem) (hA : m.A = [0, 5]) :
    l100 g 0 f 1 0 m = .fuel := by
  induction f generalizing m with
  | zero => rfl
  | succ f ih =>
    rw [l100]
    have hne : ((1 : Int) == 0) = false := by decide
    rw [hne]
    simp only [Bool.false_eq_true, if_false]
    cases g with
    | zero =>
      rw [hA]
      rfl
    | succ g =>
      rw [hA, narrow_empty_range g m.rnd]
      simp only [Run.ok_bind]
      exact ih _ rfl

/-! ## dordstat: returning on every slice -/

theorem F64.le_of_not_gt {a x : F64} (ha : a ≠ F64.nan) (hx : x ≠ F64.nan)
    (h : F64.gt a x = false) : F64.le a x = true := by
  rw [F64.le_iff_val ha hx]
  exact F64.val_le_of_not_gt ha hx h

theorem F64.le_of_not_lt {a x : F64} (ha : a ≠ F64.nan) (hx : x ≠ F64.nan)
    (h : F64.lt a x = false) : F64.le x a = true := by
  rw [F64.le_iff_val hx ha]
  exact F64.val_le_of_not_lt ha hx h

theorem F64.le_self {a : F64} (ha : a ≠ F64.nan) : F64.le a a = true := by
  rw [F64.le_iff_val ha ha]

/-- The selection loop returns on every slice, NaN entries included: with every drawn
pivot inside its range, the range shrinks onto the rank and `kth` is the entry there. -/
theorem l100_returns (g : Nat) (k : Int) (f : Nat) (p r : Int) (m : Mem)
    (hg : m.A.length ≤ g) (hf : r - p + 1 ≤ f) (hp : 1 ≤ p) (hpk : p ≤ max k 1)
    (hkr : max k 1 ≤ r) (hr : r < m.A.length)
    (hdraw : drawsInRange g k f p r m.A m.rnd = true) :
    ∃ m', l100 g k f p r m = .ok m' ∧ m'.info = 0 ∧ m'.kth = ent m'.A (max k 1) ∧
      Shuffle p r m.A m'.A := by
  induction f generalizing p r m with
  | zero => omega
  | succ f ih =>
    rw [l100]
    by_cases hpr : p = r
    · subst hpr
      have hkk : max k 1 = p := by omega
      simp only [beq_self_eq_true, if_true]
      rw [frd_ok (by omega) (by omega)]
      exact ⟨_, rfl, rfl, by simp [hkk], Shuffle.refl _ _ _⟩
    · have hne : (p == r) = false := by simpa using hpr
      rw [hne]
      simp only [Bool.false_eq_true, if_false]
      rw [drawsInRange, hne] at hdraw
      simp only [Bool.false_eq_true, if_false, Bool.and_eq_true, decide_eq_true_eq] at hdraw
      obtain ⟨hq, hrest⟩ := hdraw
      obtain ⟨j, A', e, c1, c2, s, _⟩ := narrow_spec g k p r m.A m.rnd (by omega) (by omega)
        (by omega) hg hq
      rw [e] at hrest
      simp only [] at hrest
      rw [e]
      simp only [Run.ok_bind]
      obtain ⟨m', e', d1, d2, d3⟩ := ih (if j < k then j + 1 else p) (if j < k then r else j)
        { m with A := A', rnd := if r - p ≥ 8 then nextRnd m.rnd else m.rnd }
        (by simp only []; rw [s.1]; exact hg)
        (by split <;> omega) (by split <;> omega) (by split <;> omega) (by split <;> omega)
        (by simp only []; rw [s.1]; split <;> omega) hrest
      refine ⟨m', e', d1, d2, ?_⟩
      exact s.trans (d3.mono (by omega) (by split <;> omega) (by split <;> omega))

/-- With each drawn pivot in range `dordstat` returns on every slice with entries at
`0..n`, NaN entries included, and `kth` is the entry that ends at position `max k 1`. -/
theorem dordstat_returns (fuel : Nat) (n k : Int) (m : Mem) (hn : 1 ≤ n) (hk0 : 0 ≤ k)
    (hkn : k ≤ n) (hlen : n < m.A.length) (hfuel : m.A.length ≤ fuel)
    (hdraw : pivotsInRange fuel n k m = true) :
    ∃ m', dordstat fuel n k m = .ok m' ∧ m'.info = 0 ∧ m'.kth = ent m'.A (max k 1) ∧
      Shuffle 1 n m.A m'.A := by
  have hguard : ¬ (k < 0 ∨ k > n) := by omega
  unfold dordstat
  rw [if_neg hguard]
  exact l100_returns fuel k fuel 1 n m hfuel (by omega) (le_refl _) (by omega) (by omega)
    hlen hdraw

/-! ## Properties C1 to C20 of the specification -/

/-- C1 (as stated): the claim fails on the code, on entries that are all numbers.  From
the generator state reached by five draws the call `dordstat(9, 3, A, …)` panics instead
of returning a value, and for `k = 0` the sorted entries have no element at 1-based
position 0 that `kth` could equal. -/
theorem dordstat_selection_counterexample :
    (¬ ∃ fuel m', dordstat fuel 9 3
        ⟨[0, 5, 1, 4, 2, 8, 3, 3, 9, 7], 0, 0, nextRnd (nextRnd (nextRnd (nextRnd (nextRnd 0))))⟩
          = .ok m' ∧ m'.info = 0 ∧
        nth1 (sortedEntries 9 [0, 5, 1, 4, 2, 8, 3, 3, 9, 7]) 3 = some m'.kth) ∧
    (¬ ∃ fuel m', dordstat fuel 1 0 ⟨[0, 5], 0, 0, 0⟩ = .ok m' ∧ m'.info = 0 ∧
        nth1 (sortedEntries 1 [0, 5]) 0 = some m'.kth) := by
  constructor
  · rintro ⟨fuel, m', h, _⟩
    rw [show nextRnd 0 = 150889 from by decide,
      show nextRnd 150889 = 206265263 from by decide,
      show nextRnd 206265263 = 281758500147 from by decide,
      show nextRnd 281758500147 = 384882111351691 from by decide,
      show nextRnd 384882111351691 = 525748964106560795 from by decide] at h
    cases fuel with
    | zero => exact Run.noConfusion h
    | succ fuel =>
      rw [dordstat_sixth_draw fuel 3 (by omega)] at h
      exact Run.noConfusion h
  · rintro ⟨fuel, m', _, _, h⟩
    have : nth1 (sortedEntries 1 [0, 5]) 0 = none := by decide
    rw [this] at h
    exact Option.noConfusion h

/-- C1 (amended): for every `n ≥ 1`, every `k` with `0 ≤ k ≤ n`, every slice `A` with
entries at `0..n` whose entries `A[1..n]` are compared by a total order (none of them is
NaN) and every generator state for which each pivot index drawn during the call lies in
the current range, `dordstat` returns (for every budget of at least `len(A)` loop trips)
with `info = 0` and `kth` equal to the element at 1-based position `max k 1` of the
sorted original entries `A[1..n]`: the `k`-th smallest for `k ≥ 1`, the smallest for
`k = 0`. -/
theorem dordstat_selects (fuel : Nat) (n k : Int) (m : Mem) (hn : 1 ≤ n) (hk0 : 0 ≤ k)
    (hkn : k ≤ n) (hlen : n < m.A.length) (hfuel : m.A.length ≤ fuel)
    (hnum : F64.nan ∉ entries m.A n.toNat)
    (hdraw : pivotsInRange fuel n k m = true) :
    ∃ m', dordstat fuel n k m = .ok m' ∧ m'.info = 0 ∧
      nth1 (sortedEntries n m.A) (max k 1) = some m'.kth := by
  obtain ⟨d, rfl⟩ : ∃ d : Nat, n = (d : Int) := ⟨n.toNat, by omega⟩
  simp only [Int.toNat_ofNat] at hnum
  obtain ⟨m', e, h1, h2, h3, h4⟩ := dordstat_spec fuel d k m hn hk0 hkn hlen hfuel
    (NumIn_of_entries m.A d (by omega) hnum) hdraw
  refine ⟨m', e, h1, ?_⟩
  obtain ⟨i1, i2, i3, i4, i5, _, i6, i7⟩ := h4
  rw [h2]
  exact sortedEntries_at m.A m'.A d (max k 1) i1 (by omega) (by omega) h3 hnum
    (fun a ha1 ha2 => i6 a (max k 1) ha1 ha2 (le_refl _) i4)
    (fun b hb1 hb2 => i7 (max k 1) b i1 (le_refl _) hb1 (by omega))

/-- C1 (witness): the example of the specification, `A[1..5] = [5,1,4,2,8]` and `k = 3`,
gives `kth = 4`. -/
theorem dordstat_selects_witness :
    pivotsInRange 6 5 3 ⟨[0, 5, 1, 4, 2, 8], 0, 0, 0⟩ = true ∧
    nth1 (sortedEntries 5 [0, 5, 1, 4, 2, 8]) (max 3 1) = some 4 ∧
    ∃ m', dordstat 6 5 3 ⟨[0, 5, 1, 4, 2, 8], 0, 0, 0⟩ = .ok m' ∧ m'.info = 0 ∧
      nth1 (sortedEntries 5 [0, 5, 1, 4, 2, 8]) (max 3 1) = some m'.kth :=
  ⟨by decide, by decide,
    dordstat_selects 6 5 3 ⟨[0, 5, 1, 4, 2, 8], 0, 0, 0⟩ (by decide) (by decide) (by decide)
      (by decide) (by decide) (by decide) (by decide)⟩

/-- C2: `dordstat` reports failure (`info = -1`) exactly when `k < 0` or `k > n`, and in
that case the slice `A`, the output `kth` and the generator state `rnd` are as on entry. -/
theorem dordstat_rank_validation (fuel : Nat) (n k : Int) (m : Mem) :
    ((∃ m', dordstat fuel n k m = .ok m' ∧ m'.info = -1) ↔ (k < 0 ∨ k > n)) ∧
    ((k < 0 ∨ k > n) → dordstat fuel n k m = .ok { m with info := -1 }) := by
  constructor
  · constructor
    · rintro ⟨m', h, hi⟩
      by_contra hk
      simp only [dordstat, if_neg hk] at h
      have := l100_info _ _ _ _ _ _ _ h
      omega
    · intro hk
      exact ⟨{ m with info := -1 }, by simp [dordstat, hk], rfl⟩
  · intro hk
    simp [dordstat, hk]

/-- C2 (witness): rank 4 for three entries is rejected and nothing else changes. -/
theorem dordstat_rank_validation_witness :
    dordstat 5 3 4 ⟨[0, 1, 2, 3], 9, 9, 77⟩ = .ok ⟨[0, 1, 2, 3], 9, -1, 77⟩ :=
  (dordstat_rank_validation 5 3 4 ⟨[0, 1, 2, 3], 9, 9, 77⟩).2 (by decide)

/-- C3: for `lasta ≥ 0`, row numbers `arow[1..lasta]` that are all at least 1 and index
`rowcnt`, and any initial `rowcnt`, `cntrow` returns and leaves in `rowcnt[r]`, for every
`r` from 1 to the largest row number, the number of indices `i` in `1..lasta` with
`arow[i] = r` (so `0` for a row that never occurs), whatever `rowcnt` held before. -/
theorem cntrow_histogram (arow rowcnt : List Int) (lasta : Int) (h0 : 0 ≤ lasta)
    (hlen : lasta < arow.length)
    (hrow : ∀ i : Nat, 1 ≤ i → (i : Int) ≤ lasta →
      1 ≤ arow.getD i 0 ∧ arow.getD i 0 < rowcnt.length) :
    ∃ rc, cntrow arow lasta rowcnt = .ok rc ∧
      ∀ r : Nat, 1 ≤ r → (r : Int) ≤ maxRow (entries arow lasta.toNat) →
        rc[r]? = some ((entries arow lasta.toNat).count (r : Int) : Int) := by
  obtain ⟨d, rfl⟩ : ∃ d : Nat, lasta = (d : Int) := ⟨lasta.toNat, by omega⟩
  obtain ⟨rc, e, _, _, _, hcnt⟩ := cntrow_inv arow rowcnt d (by omega)
    (fun i h1 h2 => hrow i h1 (by omega))
  refine ⟨rc, e, ?_⟩
  intro r h1 h2
  simp only [Int.toNat_ofNat] at h2 ⊢
  have := hcnt r
  simp only [] at this
  rw [if_pos ⟨h1, h2⟩] at this
  exact this

/-- C3 (witness): rows `[1,3,3,2,1,1]` with `lasta = 6` give the counts 3, 1, 2. -/
theorem cntrow_histogram_witness :
    ∃ rc, cntrow [0, 1, 3, 3, 2, 1, 1] 6 [7, 7, 7, 7] = .ok rc ∧
      rc[1]? = some 3 ∧ rc[2]? = some 1 ∧ rc[3]? = some 2 := by
  obtain ⟨rc, e, h⟩ := cntrow_histogram [0, 1, 3, 3, 2, 1, 1] [7, 7, 7, 7] 6 (by decide)
    (by decide) (by
      intro i h1 h2
      have : i ≤ 6 := by omega
      interval_cases i <;> decide)
  exact ⟨rc, e, h 1 (by decide) (by decide), h 2 (by decide) (by decide),
    h 3 (by decide) (by decide)⟩

/-- C4: when source and destination are windows of one buffer and the destination
starts after the source with `mode = true` (descending), or before it with
`mode = false` (ascending), `rcopy` and `icopy` return the buffer that a copy through an
independent temporary produces, so the destination entries `b[1..la]` afterwards are the
source entries `a[1..la]` from before the call. -/
theorem copy_overlap_safe (M : List Int) (a b : Slice) (la : Int) (mode : Bool)
    (h0 : 0 ≤ la) (hla : la < a.len) (hlb : la < b.len)
    (hma : a.off + a.len ≤ M.length) (hmb : b.off + b.len ≤ M.length)
    (hdir : (a.off < b.off ∧ mode = true) ∨ (b.off < a.off ∧ mode = false)) :
    rcopy M a b la mode = .ok (copyViaTemp M a b la) ∧
    icopy M a b la mode = .ok (copyViaTemp M a b la) ∧
    ∀ i : Nat, 1 ≤ i → (i : Int) ≤ la → (copyViaTemp M a b la)[b.off + i]? = M[a.off + i]? := by
  obtain ⟨d, rfl⟩ : ∃ d : Nat, la = (d : Int) := ⟨la.toNat, by omega⟩
  have hval : ∀ i : Nat, 1 ≤ i → (i : Int) ≤ (d : Int) →
      (copyViaTemp M a b d)[b.off + i]? = M[a.off + i]? := by
    intro i h1 h2
    rw [copyViaTemp_get M a b d (by omega) (by omega)]
    unfold copiedAt
    rw [if_pos (by omega)]
    congr 1
    omega
  rcases hdir with ⟨h, rfl⟩ | ⟨h, rfl⟩
  · have := copyDown_eq M a b d (by omega) (by omega) hma hmb (Or.inl (by omega))
    exact ⟨by simpa [rcopy] using this, by simpa [icopy] using this, hval⟩
  · have := copyUp_eq M a b d (by omega) (by omega) hma hmb (Or.inl (by omega))
    exact ⟨by simpa [rcopy] using this, by simpa [icopy] using this, hval⟩

/-- C4 (witness): destination one element after the source, descending traversal. -/
theorem copy_overlap_safe_witness :
    rcopy [0, 1, 2, 3, 4, 5, 6] ⟨0, 6⟩ ⟨1, 6⟩ 3 true = .ok [0, 1, 1, 2, 3, 5, 6] ∧
    copyViaTemp [0, 1, 2, 3, 4, 5, 6] ⟨0, 6⟩ ⟨1, 6⟩ 3 = [0, 1, 1, 2, 3, 5, 6] :=
  ⟨(copy_overlap_safe [0, 1, 2, 3, 4, 5, 6] ⟨0, 6⟩ ⟨1, 6⟩ 3 true (by decide) (by decide)
      (by decide) (by decide) (by decide) (Or.inl ⟨by decide, rfl⟩)).1, by decide⟩

/-- C5: for non-overlapping windows `a` and `b` with at least `la + 1` entries each and
either value of `mode`, `rcopy` and `icopy` return the same buffer, in which
`b[i] = a[i]` for `1 ≤ i ≤ la` and every other entry of the buffer (so `b[0]`, `b[i]`
for `i > la`, and all of `a`) is unchanged; the other direction returns that buffer too,
and `icopy` agrees with `rcopy` on every input. -/
theorem copy_disjoint (M : List Int) (a b : Slice) (la : Int) (mode : Bool)
    (h0 : 0 ≤ la) (hla : la < a.len) (hlb : la < b.len)
    (hma : a.off + a.len ≤ M.length) (hmb : b.off + b.len ≤ M.length)
    (hdisj : a.off + a.len ≤ b.off ∨ b.off + b.len ≤ a.off) :
    ∃ N, rcopy M a b la mode = .ok N ∧ icopy M a b la mode = .ok N ∧
      rcopy M a b la (!mode) = .ok N ∧ N.length = M.length ∧
      (∀ i : Nat, 1 ≤ i → (i : Int) ≤ la → N[b.off + i]? = M[a.off + i]?) ∧
      N[b.off]? = M[b.off]? ∧
      (∀ i : Nat, la < (i : Int) → N[b.off + i]? = M[b.off + i]?) ∧
      (∀ i : Nat, i < a.len → N[a.off + i]? = M[a.off + i]?) ∧
      (∀ pos : Nat, ¬ (b.off < pos ∧ (pos : Int) ≤ b.off + la) → N[pos]? = M[pos]?) ∧
      ∀ (M' : List Int) (a' b' : Slice) (la' : Int) (mode' : Bool),
        icopy M' a' b' la' mode' = rcopy M' a' b' la' mode' := by
  obtain ⟨d, rfl⟩ : ∃ d : Nat, la = (d : Int) := ⟨la.toNat, by omega⟩
  have hup := copyUp_eq M a b d (by omega) (by omega) hma hmb (by omega)
  have hdown := copyDown_eq M a b d (by omega) (by omega) hma hmb (by omega)
  have hget := copyViaTemp_get M a b d (by omega) (by omega)
  have hframe : ∀ pos : Nat, ¬ (b.off < pos ∧ (pos : Int) ≤ b.off + (d : Int)) →
      (copyViaTemp M a b d)[pos]? = M[pos]? := by
    intro pos hpos
    rw [hget]
    unfold copiedAt
    rw [if_neg (by omega)]
  refine ⟨copyViaTemp M a b d, ?_, ?_, ?_, ?_, ?_, ?_, ?_, ?_, hframe, ?_⟩
  · cases mode
    · simpa [rcopy] using hup
    · simpa [rcopy] using hdown
  · cases mode
    · simpa [icopy] using hup
    · simpa [icopy] using hdown
  · cases mode
    · simpa [rcopy] using hdown
    · simpa [rcopy] using hup
  · have e1 : (forUp (copyStep a b) d 1 M) = .ok (copyViaTemp M a b d) := hup
    unfold copyViaTemp
    simp only [Int.toNat_ofNat, List.length_append, List.length_take, List.length_drop]
    omega
  · intro i h1 h2
    rw [hget]
    unfold copiedAt
    rw [if_pos (by omega)]
    congr 1
    omega
  · exact hframe _ (by omega)
  · intro i hi
    exact hframe _ (by omega)
  · intro i hi
    exact hframe _ (by omega)
  · intro M' a' b' la' mode'
    cases mode' <;> rfl

/-- C5 (witness): two windows of three entries each, side by side in one buffer. -/
theorem copy_disjoint_witness :
    ∃ N, rcopy [0, 1, 2, 7, 8, 9] ⟨0, 3⟩ ⟨3, 3⟩ 2 false = .ok N ∧
      icopy [0, 1, 2, 7, 8, 9] ⟨0, 3⟩ ⟨3, 3⟩ 2 false = .ok N ∧
      rcopy [0, 1, 2, 7, 8, 9] ⟨0, 3⟩ ⟨3, 3⟩ 2 true = .ok N ∧ N.length = 6 := by
  obtain ⟨N, h1, h2, h3, h4, _⟩ := copy_disjoint [0, 1, 2, 7, 8, 9] ⟨0, 3⟩ ⟨3, 3⟩ 2 false
    (by decide) (by decide) (by decide) (by decide) (by decide) (Or.inl (by decide))
  exact ⟨N, h1, h2, h3, h4⟩

/-- C6: the code does not reduce the generator state modulo 714025.  Two successive
calls on nine entries, starting from `rnd = 0`, leave `rnd = 150889` and then
`rnd = 206265263 = 1366·150889 + 150889`, where the recurrence of the claim gives
`626063`; the state is no longer below 714025. -/
theorem generator_modulus_not_applied :
    dordstat 20 9 1 ⟨[0, 5, 1, 4, 2, 8, 3, 3, 9, 7], 0, 0, 0⟩
      = .ok ⟨[0, 1, 2, 3, 4, 5, 3, 7, 9, 8], 1, 0, 150889⟩ ∧
    dordstat 20 9 1 ⟨[0, 5, 1, 4, 2, 8, 3, 3, 9, 7], 0, 0, 150889⟩
      = .ok ⟨[0, 1, 2, 3, 4, 8, 5, 3, 9, 7], 1, 0, 206265263⟩ ∧
    nextRnd 150889 = 206265263 ∧
    (1366 * 150889 + 150889) % 714025 = (626063 : Int) ∧
    ¬ ((206265263 : Int) < 714025) := by
  refine ⟨by decide, by decide, by decide, by decide, by decide⟩

/-- C7: a generator state reached from `rnd = 0` by five draws makes the next draw
negative: on the range `[1, 9]` the pivot index is `q = -5 < p`, and the call panics on
`A[-5]` for every budget. -/
theorem pivot_index_leaves_range :
    nextRnd 0 = 150889 ∧ nextRnd 150889 = 206265263 ∧ nextRnd 206265263 = 281758500147 ∧
    nextRnd 281758500147 = 384882111351691 ∧
    nextRnd 384882111351691 = 525748964106560795 ∧
    nextRnd 525748964106560795 = -1249933905110316165 ∧
    pivotIndex (nextRnd 525748964106560795) 1 9 = -5 ∧
    ∀ fuel, dordstat (fuel + 1) 9 1
      ⟨[0, 5, 1, 4, 2, 8, 3, 3, 9, 7], 0, 0, 525748964106560795⟩ = .panic := by
  refine ⟨by decide, by decide, by decide, by decide, by decide, by decide, by decide,
    fun fuel => dordstat_sixth_draw fuel 1 (by omega)⟩

/-- C8: a sequence of calls that all return with `info = 0`, started from `rnd = 0`,
ends with a call on eleven entries whose drawn pivot index is `q = 0`: the reserved
entry `A[0] = 100` is exchanged into `A[1..11]`, so the entries `A[1..11]` are no longer
a rearrangement of the original ones and `A[0]` has changed. -/
theorem dordstat_moves_reserved_entry :
    dordstat 20 9 1 ⟨[0, 5, 1, 4, 2, 8, 3, 3, 9, 7], 0, 0, 0⟩
      = .ok ⟨[0, 1, 2, 3, 4, 5, 3, 7, 9, 8], 1, 0, 150889⟩ ∧
    dordstat 20 9 1 ⟨[0, 5, 1, 4, 2, 8, 3, 3, 9, 7], 0, 0, 150889⟩
      = .ok ⟨[0, 1, 2, 3, 4, 8, 5, 3, 9, 7], 1, 0, 206265263⟩ ∧
    dordstat 20 9 1 ⟨[0, 5, 1, 4, 2, 8, 3, 3, 9, 7], 0, 0, 206265263⟩
      = .ok ⟨[0, 1, 2, 4, 5, 8, 3, 3, 9, 7], 1, 0, 281758500147⟩ ∧
    dordstat 20 9 1 ⟨[0, 5, 1, 4, 2, 8, 3, 3, 9, 7], 0, 0, 281758500147⟩
      = .ok ⟨[0, 1, 2, 3, 4, 3, 5, 8, 7, 9], 1, 0, 384882111351691⟩ ∧
    dordstat 20 9 1 ⟨[0, 5, 1, 4, 2, 8, 3, 3, 9, 7], 0, 0, 384882111351691⟩
      = .ok ⟨[0, 1, 2, 3, 4, 3, 5, 8, 9, 7], 1, 0, 525748964106560795⟩ ∧
    dordstat 20 15 1
        ⟨[0, 8, 1, 2, 3, 4, 5, 6, 7, 9, 10, 11, 12, 13, 14, 15], 0, 0, 525748964106560795⟩
      = .ok ⟨[0, 1, 2, 3, 4, 5, 6, 7, 8, 9, 10, 11, 12, 13, 14, 15], 1, 0,
          -1249933905110316165⟩ ∧
    dordstat 20 9 1 ⟨[0, 5, 1, 4, 2, 8, 3, 3, 9, 7], 0, 0, -1249933905110316165⟩
      = .ok ⟨[0, 1, 5, 4, 2, 8, 3, 3, 9, 7], 1, 0, 8137484474296569787⟩ ∧
    pivotIndex (nextRnd 8137484474296569787) 1 11 = 0 ∧
    dordstat 20 11 1 ⟨[100, 5, 1, 4, 2, 8, 3, 3, 9, 7, 6, 6], 0, 0, 8137484474296569787⟩
      = .ok ⟨[5, 1, 2, 3, 4, 3, 6, 8, 9, 7, 6, 100], 1, 0, 8849863544900748859⟩ ∧
    ¬ (entries ([5, 1, 2, 3, 4, 3, 6, 8, 9, 7, 6, 100] : List F64) 11).Perm
        (entries [100, 5, 1, 4, 2, 8, 3, 3, 9, 7, 6, 6] 11) ∧
    ent [5, 1, 2, 3, 4, 3, 6, 8, 9, 7, 6, 100] 0 ≠ ent [100, 5, 1, 4, 2, 8, 3, 3, 9, 7, 6, 6] 0 := by
  refine ⟨by decide, by decide, by decide, by decide, by decide, by decide, by decide,
    by decide, by decide, ?_, by decide⟩
  intro h
  have := h.mem_iff (a := 100)
  revert this
  decide

/-- C9: on two windows of one buffer that both have an entry at index 1, `requiv`
returns `true` when the windows are the same and `false` when they do not overlap,
whatever the buffer holds. -/
theorem requiv_aliasing_probe (M : List Int) (a b : Slice) (ha : 1 < a.len) (hb : 1 < b.len)
    (hma : a.off + a.len ≤ M.length) (hmb : b.off + b.len ≤ M.length) :
    (a = b → ∃ M', requiv M a b = .ok (true, M')) ∧
    ((a.off + a.len ≤ b.off ∨ b.off + b.len ≤ a.off) →
      ∃ M', requiv M a b = .ok (false, M')) := by
  have h := requiv_eq M a b ha hb hma hmb
  constructor
  · intro hab
    refine ⟨M, ?_⟩
    rw [h, hab]
    simp
  · intro hdisj
    refine ⟨M, ?_⟩
    rw [h]
    have : ¬ a.off = b.off := by omega
    simp [this]

/-- C9 (witness): one window probed against itself, and against a disjoint window with
the same contents. -/
theorem requiv_aliasing_probe_witness :
    (∃ M', requiv [3, 0, 5, 3, 0, 5] ⟨0, 3⟩ ⟨0, 3⟩ = .ok (true, M')) ∧
    (∃ M', requiv [3, 0, 5, 3, 0, 5] ⟨0, 3⟩ ⟨3, 3⟩ = .ok (false, M')) :=
  ⟨(requiv_aliasing_probe [3, 0, 5, 3, 0, 5] ⟨0, 3⟩ ⟨0, 3⟩ (by decide) (by decide) (by decide)
      (by decide)).1 rfl,
    (requiv_aliasing_probe [3, 0, 5, 3, 0, 5] ⟨0, 3⟩ ⟨3, 3⟩ (by decide) (by decide) (by decide)
      (by decide)).2 (Or.inl (by decide))⟩

/-- C10: with `lsolve` and `usolve` arbitrary operations and `n ≥ 0` (so that the
allocation of `rwork` succeeds and the stages run), `lusolv` returns the error of
`lsolve` and the slices exactly as `lsolve` left them, whatever `usolve` is, when
`lsolve` fails; otherwise it returns the error of `usolve` when that fails; and it
returns `nil` exactly when both stages succeed. -/
theorem lusolv_error_propagation {ε : Type} (lsolve usolve : Stage ε) (n : Int) (m : SolveMem)
    (hn : 0 ≤ n) :
    (∀ e m1, lsolve n { m with rwork := List.replicate n.toNat 0 } = (some e, m1) →
      ∀ other : Stage ε, lusolv lsolve other n m = .ok (some e, m1)) ∧
    (∀ m1 e m2, lsolve n { m with rwork := List.replicate n.toNat 0 } = (none, m1) →
      usolve n m1 = (some e, m2) → lusolv lsolve usolve n m = .ok (some e, m2)) ∧
    ((∃ m2, lusolv lsolve usolve n m = .ok (none, m2)) ↔
      ∃ m1 m2, lsolve n { m with rwork := List.replicate n.toNat 0 } = (none, m1) ∧
        usolve n m1 = (none, m2)) := by
  have hn' : ¬ n < 0 := by omega
  refine ⟨?_, ?_, ?_⟩
  · intro e m1 h other
    simp only [lusolv, if_neg hn', h]
  · intro m1 e m2 h1 h2
    simp only [lusolv, if_neg hn', h1, h2]
  · constructor
    · rintro ⟨m2, h⟩
      simp only [lusolv, if_neg hn'] at h
      rcases h1 : lsolve n { m with rwork := List.replicate n.toNat 0 } with ⟨e1, m1⟩
      rw [h1] at h
      cases e1 with
      | some e => simp at h
      | none =>
        simp only at h
        rcases h2 : usolve n m1 with ⟨e2, m2'⟩
        rw [h2] at h
        cases e2 with
        | some e => simp at h
        | none => exact ⟨m1, m2', rfl, h2⟩
    · rintro ⟨m1, m2, h1, h2⟩
      exact ⟨m2, by simp only [lusolv, if_neg hn', h1, h2]⟩

/-- C10 (witness): a forward stage that fails with error 7. -/
theorem lusolv_error_propagation_witness :
    lusolv (fun _ m => (some (7 : Nat), m)) (fun _ m => (none, { m with x := [] })) 2
        ⟨[], [], [], [], [], [], [1, 2], []⟩
      = .ok (some 7, ⟨[], [], [], [], [], [], [1, 2], [0, 0]⟩) :=
  (lusolv_error_propagation (fun _ m => (some (7 : Nat), m))
    (fun _ m => (none, { m with x := [] })) 2 ⟨[], [], [], [], [], [], [1, 2], []⟩
    (by decide)).1 7 _ rfl _

/-- C11: for `la ≥ 0` and a slice `a` with at least `la + 1` entries, `rfill` and `ifill`
return, leaving `a[i] = v` for `1 ≤ i ≤ la`, and `a[0]` and every `a[i]` with `i > la`
unchanged. -/
theorem fill_sets_entries (a : List Int) (la v : Int) (h0 : 0 ≤ la) (hla : la < a.length) :
    ∃ a', rfill a la v = .ok a' ∧ ifill a la v = .ok a' ∧ a'.length = a.length ∧
      (∀ i : Nat, 1 ≤ i → (i : Int) ≤ la → a'[i]? = some v) ∧
      a'[0]? = a[0]? ∧
      (∀ i : Nat, la < (i : Int) → a'[i]? = a[i]?) := by
  obtain ⟨d, rfl⟩ : ∃ d : Nat, la = (d : Int) := ⟨la.toNat, by omega⟩
  obtain ⟨a', e, hl, h⟩ := fill_spec a d v (by omega)
  refine ⟨a', by simpa [rfill] using e, by simpa [ifill] using e, hl, ?_, ?_, ?_⟩
  · intro i h1 h2
    rw [h, if_pos (by omega)]
  · rw [h, if_neg (by omega)]
  · intro i hi
    rw [h, if_neg (by omega)]

/-- C11 (witness): filling three entries of a slice of five. -/
theorem fill_sets_entries_witness :
    rfill [7, 1, 2, 3, 4] 3 9 = .ok [7, 9, 9, 9, 4] ∧
    ∃ a', rfill [7, 1, 2, 3, 4] 3 9 = .ok a' ∧ ifill [7, 1, 2, 3, 4] 3 9 = .ok a' ∧
      a'.length = 5 := by
  obtain ⟨a', h1, h2, h3, _⟩ := fill_sets_entries [7, 1, 2, 3, 4] 3 9 (by decide) (by decide)
  exact ⟨by decide, a', h1, h2, h3⟩

/-- C12: with `arow` and `rowcnt` two non-overlapping windows of a buffer, row numbers
`arow[1..lasta] ≥ 1` that index `rowcnt`, `cntrow` returns and leaves `rowcnt[0]`, every
`rowcnt[r]` with `r` above the largest row number, and every entry of `arow` as on entry;
with `lasta = 0` the whole buffer is unchanged. -/
theorem cntrow_frame (M : List Int) (arow rowcnt : Slice) (lasta : Int) (h0 : 0 ≤ lasta)
    (hla : lasta < arow.len) (hma : arow.off + arow.len ≤ M.length)
    (hmr : rowcnt.off + rowcnt.len ≤ M.length)
    (hdisj : arow.off + arow.len ≤ rowcnt.off ∨ rowcnt.off + rowcnt.len ≤ arow.off)
    (hrow : ∀ i : Nat, 1 ≤ i → (i : Int) ≤ lasta →
      1 ≤ M.getD (arow.off + i) 0 ∧ M.getD (arow.off + i) 0 < rowcnt.len) :
    ∃ M', cntrowM M arow rowcnt lasta = .ok M' ∧ M'.length = M.length ∧
      M'[rowcnt.off]? = M[rowcnt.off]? ∧
      (∀ r : Nat, maxRow (entries (M.drop arow.off) lasta.toNat) < (r : Int) →
        M'[rowcnt.off + r]? = M[rowcnt.off + r]?) ∧
      (∀ i : Nat, i < arow.len → M'[arow.off + i]? = M[arow.off + i]?) ∧
      (lasta = 0 → M' = M) := by
  obtain ⟨d, rfl⟩ : ∃ d : Nat, lasta = (d : Int) := ⟨lasta.toNat, by omega⟩
  obtain ⟨M', e, hl, hm0, hsmall, _, hfr⟩ := cntrowM_frame M arow rowcnt d (by omega) hma hmr
    hdisj (fun i h1 h2 => hrow i h1 (by omega))
  simp only [Int.toNat_ofNat] at hl hm0 hsmall hfr ⊢
  refine ⟨M', e, hl, hfr _ (by omega), ?_, ?_, ?_⟩
  · intro r hr
    exact hfr _ (by omega)
  · intro i hi
    exact hfr _ (by omega)
  · intro hd
    have hd0 : d = 0 := by omega
    subst hd0
    apply List.ext_getElem?
    intro pos
    apply hfr
    have : maxRow (entries (List.drop arow.off M) 0) = 0 := by simp [entries, maxRow]
    rw [this]
    omega

/-- C12 (witness): rows `[1,3,3,2,1,1]` counted into a window of five entries that
follows them in the buffer; `rowcnt[0]` and `rowcnt[4]` keep their values. -/
theorem cntrow_frame_witness :
    cntrowM [0, 1, 3, 3, 2, 1, 1, 7, 7, 7, 7, 7] ⟨0, 7⟩ ⟨7, 5⟩ 6
      = .ok [0, 1, 3, 3, 2, 1, 1, 7, 3, 1, 2, 7] ∧
    ∃ M', cntrowM [0, 1, 3, 3, 2, 1, 1, 7, 7, 7, 7, 7] ⟨0, 7⟩ ⟨7, 5⟩ 6 = .ok M' ∧
      M'.length = 12 ∧ M'[7]? = some 7 := by
  obtain ⟨M', h1, h2, h3, _⟩ := cntrow_frame [0, 1, 3, 3, 2, 1, 1, 7, 7, 7, 7, 7] ⟨0, 7⟩ ⟨7, 5⟩ 6
    (by decide) (by decide) (by decide) (by decide) (Or.inl (by decide)) (by
      intro i h1 h2
      have : i ≤ 6 := by omega
      interval_cases i <;> decide)
  exact ⟨by decide, M', h1, h2, h3⟩

/-- C13: on two windows of one buffer that both have an entry at index 1, overlapping
or not, `requiv` returns with the buffer exactly as it was on entry, on every return
path. -/
theorem requiv_restores (M : List Int) (a b : Slice) (ha : 1 < a.len) (hb : 1 < b.len)
    (hma : a.off + a.len ≤ M.length) (hmb : b.off + b.len ≤ M.length) :
    ∃ res, requiv M a b = .ok (res, M) :=
  ⟨_, requiv_eq M a b ha hb hma hmb⟩

/-- C13 (witness): the three return paths, namely the first probe failing, the second
probe failing and both probes matching, each leave the buffer as it was. -/
theorem requiv_restores_witness :
    requiv [3, 4, 5, 3, 6, 5] ⟨0, 3⟩ ⟨3, 3⟩ = .ok (false, [3, 4, 5, 3, 6, 5]) ∧
    requiv [3, 4, 5, 3, 0, 5] ⟨0, 3⟩ ⟨3, 3⟩ = .ok (false, [3, 4, 5, 3, 0, 5]) ∧
    requiv [3, 4, 5, 3, 0, 5] ⟨0, 3⟩ ⟨0, 3⟩ = .ok (true, [3, 4, 5, 3, 0, 5]) ∧
    ∃ res, requiv [3, 4, 5, 3, 6, 5] ⟨0, 3⟩ ⟨3, 3⟩ = .ok (res, [3, 4, 5, 3, 6, 5]) :=
  ⟨by decide, by decide, by decide,
    requiv_restores [3, 4, 5, 3, 6, 5] ⟨0, 3⟩ ⟨3, 3⟩ (by decide) (by decide) (by decide)
      (by decide)⟩

/-- C14: with the destination window one element after the source window and
`la = 3`, the ascending traversal (`mode = false`) overwrites source entries before they
are read: the destination ends up as `[1, 1, 1]` where the source held `[1, 2, 3]`, unlike
the copy through a temporary and unlike the descending traversal. -/
theorem rcopy_wrong_direction_corrupts :
    ∃ (M N : List Int) (a b : Slice) (la : Int),
      2 ≤ la ∧ b.off = a.off + 1 ∧ rcopy M a b la false = .ok N ∧
      N ≠ copyViaTemp M a b la ∧
      (∃ i : Nat, 1 ≤ i ∧ (i : Int) ≤ la ∧ N[b.off + i]? ≠ M[a.off + i]?) ∧
      rcopy M a b la true = .ok (copyViaTemp M a b la) :=
  ⟨[0, 1, 2, 3, 4, 5, 6], [0, 1, 1, 1, 1, 5, 6], ⟨0, 6⟩, ⟨1, 6⟩, 3, by decide, by decide,
    by decide, by decide, ⟨2, by decide, by decide, by decide⟩, by decide⟩

/-- C15: a range of fewer than 9 entries (`r - p + 1 < 9`) is partitioned around its
leftmost entry with the slice and the generator state untouched; a range of 9 or more
entries makes a draw, replacing the state by `nextRnd rnd`; hence for `n ≤ 8` the outcome
of `dordstat` for one generator state is its outcome for any other with the state passed
through, and a returning call leaves `rnd` as it was. -/
theorem small_ranges_skip_generator :
    (∀ (p r : Int) (A : List F64) (rnd : Int), r - p + 1 < 9 →
      randomize p r A rnd = .ok (A, rnd)) ∧
    (∀ (p r : Int) (A : List F64) (rnd : Int), 9 ≤ r - p + 1 →
      randomize p r A rnd
        = exchange A p (pivotIndex (nextRnd rnd) p r) >>= fun A' => pure (A', nextRnd rnd)) ∧
    (∀ (fuel : Nat) (n k : Int) (A : List F64) (kth : F64) (info rnd1 rnd2 : Int), n ≤ 8 →
      dordstat fuel n k ⟨A, kth, info, rnd2⟩
        = dordstat fuel n k ⟨A, kth, info, rnd1⟩ >>= fun m' => pure { m' with rnd := rnd2 }) ∧
    (∀ (fuel : Nat) (n k : Int) (m m' : Mem), n ≤ 8 →
      dordstat fuel n k m = .ok m' → m'.rnd = m.rnd) :=
  ⟨randomize_small, randomize_large, dordstat_small, dordstat_small_rnd⟩

/-- C15 (witness): five entries, two generator states, one result. -/
theorem small_ranges_skip_generator_witness :
    dordstat 6 5 3 ⟨[0, 5, 1, 4, 2, 8], 0, 0, 525748964106560795⟩
      = .ok ⟨[0, 1, 2, 4, 5, 8], 4, 0, 525748964106560795⟩ ∧
    dordstat 6 5 3 ⟨[0, 5, 1, 4, 2, 8], 0, 0, 525748964106560795⟩
      = dordstat 6 5 3 ⟨[0, 5, 1, 4, 2, 8], 0, 0, 0⟩ >>=
          fun m' => pure { m' with rnd := 525748964106560795 } :=
  ⟨by decide,
    small_ranges_skip_generator.2.2.1 6 5 3 [0, 5, 1, 4, 2, 8] 0 0 0 525748964106560795
      (by decide)⟩

/-- C17 (as stated): the claim fails on the code when the range holds a NaN.  With the
pivot `x = A[1] = NaN` the pass over `A[1..4] = [NaN,1,2,3]` ends at `j = 2` with
`A[1..2] = [3,2]`, and `3 <= NaN` is false; with the pivot `x = A[1] = 2` the pass over
`A[1..4] = [2,NaN,1,3]` ends at `j = 2` with `A[1..2] = [1,NaN]`, and `NaN <= 2` is
false. -/
theorem partition_pass_counterexample :
    l200 5 (ent [0, F64.nan, 1, 2, 3] 1) 4 [0, F64.nan, 1, 2, 3] (1 - 1) (4 + 1)
      = .ok ([0, 3, 2, 1, F64.nan], 2) ∧
    ent [0, 3, 2, 1, F64.nan] 1 = 3 ∧
    F64.le (ent [0, 3, 2, 1, F64.nan] 1) (ent [0, F64.nan, 1, 2, 3] 1) = false ∧
    l200 5 (ent [0, 2, F64.nan, 1, 3] 1) 4 [0, 2, F64.nan, 1, 3] (1 - 1) (4 + 1)
      = .ok ([0, 1, F64.nan, 2, 3], 2) ∧
    ent [0, 1, F64.nan, 2, 3] 2 = F64.nan ∧
    F64.le (ent [0, 1, F64.nan, 2, 3] 2) (ent [0, 2, F64.nan, 1, 3] 1) = false := by
  decide

/-- C17 (amended): for a range `1 ≤ p < r ≤ n` of a slice with entries at `0..n` and the
pivot value `x = A[p]`, one partition pass returns (budget of at least `r - p + 1` trips,
inner scans of at least `len(A)`), and returns the same when every access outside
`A[p..r]` is made a fault; it only rearranges entries inside `A[p..r]`, and ends with
`p ≤ j < r`, no entry of `A[p..j]` greater than `x` and no entry of `A[j+1..r]` less than
`x`; when no entry of `A[p..r]` is NaN that is `A[p..j] ≤ x` and `A[j+1..r] ≥ x`; for
every `k` the narrowed range is non-empty and shorter than `[p, r]`. -/
theorem partition_pass (g f : Nat) (n p r : Int) (A : List F64) (hp : 1 ≤ p) (hpr : p < r)
    (hrn : r ≤ n) (hn : n < A.length) (hg : A.length ≤ g) (hf : r - p + 1 ≤ f) :
    ∃ A' j, l200 g (ent A p) f A (p - 1) (r + 1) = .ok (A', j) ∧
      l200In p r g (ent A p) f A (p - 1) (r + 1) = .ok (A', j) ∧
      p ≤ j ∧ j < r ∧ Shuffle p r A A' ∧
      (∀ t, p ≤ t → t ≤ j → F64.gt (ent A' t) (ent A p) = false) ∧
      (∀ t, j < t → t ≤ r → F64.lt (ent A' t) (ent A p) = false) ∧
      (NumIn p r A →
        (∀ t, p ≤ t → t ≤ j → F64.le (ent A' t) (ent A p) = true) ∧
        (∀ t, j < t → t ≤ r → F64.le (ent A p) (ent A' t) = true)) ∧
      ∀ k : Int, (if j < k then j + 1 else p) ≤ (if j < k then r else j) ∧
        (if j < k then r else j) - (if j < k then j + 1 else p) < r - p := by
  obtain ⟨A', j, e, c1, c2, c3, c4, c5⟩ := l200_pass g (ent A p) p r f A (by omega) hpr
    (by omega) hg hf rfl
  refine ⟨A', j, e, ?_, c1, c2, c3, c4, c5, ?_, ?_⟩
  · rw [l200In_pass_eq g (ent A p) p r f A (by omega) (by omega) (by omega) rfl, e]
  · intro hnum
    have hnum' := NumIn_of_shuffle c3 hnum
    have hx := hnum p (le_refl _) (by omega)
    exact ⟨fun t h1 h2 => F64.le_of_not_gt (hnum' t h1 (by omega)) hx (c4 t h1 h2),
      fun t h1 h2 => F64.le_of_not_lt (hnum' t (by omega) h2) hx (c5 t h1 h2)⟩
  · intro k
    split <;> omega

/-- C17 (witness): the range `1..5` of `[5,1,4,2,8]` with pivot 5 is split at `j = 3`. -/
theorem partition_pass_witness :
    l200In 1 5 6 5 5 [0, 5, 1, 4, 2, 8] 0 6 = .ok ([0, 2, 1, 4, 5, 8], 3) ∧
    ∃ A' j, l200 6 (ent [0, 5, 1, 4, 2, 8] 1) 5 [0, 5, 1, 4, 2, 8] (1 - 1) (5 + 1) = .ok (A', j) ∧
      l200In 1 5 6 (ent [0, 5, 1, 4, 2, 8] 1) 5 [0, 5, 1, 4, 2, 8] (1 - 1) (5 + 1)
        = .ok (A', j) ∧ 1 ≤ j ∧ j < 5 := by
  obtain ⟨A', j, h1, h2, h3, h4, _⟩ := partition_pass 6 5 5 1 5 [0, 5, 1, 4, 2, 8]
    (by decide) (by decide) (by decide) (by decide) (by decide) (by decide)
  exact ⟨by decide, A', j, h1, h2, h3, h4⟩

/-- C18: the accepted input `n = 0`, `k = 0` with `A = [0, 5]` never returns.  The range
is `p = 1`, `r = 0`; one trip from `l100` leaves `p`, `r`, `A` and `rnd` as they were, so
`p == r` is never reached and every budget is exhausted. -/
theorem dordstat_empty_never_returns :
    (∀ (g : Nat) (rnd : Int), narrow (g + 1) 0 1 0 [0, 5] rnd = .ok (1, 0, [0, 5], rnd)) ∧
    ∀ (fuel : Nat) (kth : F64) (info rnd : Int),
      dordstat fuel 0 0 ⟨[0, 5], kth, info, rnd⟩ = .fuel := by
  refine ⟨narrow_empty_range, ?_⟩
  intro fuel kth info rnd
  unfold dordstat
  rw [if_neg (by omega)]
  exact l100_empty_range fuel fuel _ rfl

/-- C19 (as stated): the claim fails on the code when an entry is NaN.  With `n = 4`,
`k = 1` and `A[1..4] = [NaN,1,2,3]` (nothing is drawn) the call returns `kth = 2` and
leaves `A[1..4] = [2,3,1,NaN]`: the entry `A[3] = 1` of `A[k+1..n]` is below `A[k] = 2`. -/
theorem final_placement_counterexample :
    pivotsInRange 5 4 1 ⟨[0, F64.nan, 1, 2, 3], 0, 0, 0⟩ = true ∧
    dordstat 5 4 1 ⟨[0, F64.nan, 1, 2, 3], 0, 0, 0⟩ = .ok ⟨[0, 2, 3, 1, F64.nan], 2, 0, 0⟩ ∧
    ent [0, 2, 3, 1, F64.nan] 1 = 2 ∧ ent [0, 2, 3, 1, F64.nan] 3 = 1 ∧
    F64.lt (ent [0, 2, 3, 1, F64.nan] 3) (ent [0, 2, 3, 1, F64.nan] 1) = true ∧
    F64.le (ent [0, 2, 3, 1, F64.nan] 1) (ent [0, 2, 3, 1, F64.nan] 3) = false := by
  decide

/-- C19 (amended): for `1 ≤ k ≤ n`, a slice with entries at `0..n` and each drawn pivot
index in its range, the call returns with `info = 0` and `kth` equal to the final `A[k]`;
the invariant `SelInv n k p r A` (`p ≤ k ≤ r`, no NaN among `A[1..n]`, entries left of
the range at most those from `p` on, entries up to `r` at most those right of the range)
is kept by every narrowing step, which also shortens the range; and when no entry of
`A[1..n]` is NaN the invariant holds on entry to the loop and the call returns with
`p = r = k`, every entry of `A[1..k-1]` at most `A[k]` and every entry of `A[k+1..n]` at
least `A[k]`. -/
theorem final_placement (fuel : Nat) (n k : Int) (m : Mem) (hk1 : 1 ≤ k) (hkn : k ≤ n)
    (hlen : n < m.A.length) (hfuel : m.A.length ≤ fuel)
    (hdraw : pivotsInRange fuel n k m = true) :
    (∃ m', dordstat fuel n k m = .ok m' ∧ m'.info = 0 ∧ m'.kth = ent m'.A k) ∧
    (∀ (p r : Int) (A : List F64) (rnd : Int), SelInv n k p r A → p ≠ r → A.length ≤ fuel →
      (r - p ≥ 8 →
        p ≤ pivotIndex (nextRnd rnd) p r ∧ pivotIndex (nextRnd rnd) p r ≤ r) →
      ∃ p' r' A' rnd', narrow fuel k p r A rnd = .ok (p', r', A', rnd') ∧
        SelInv n k p' r' A' ∧ r' - p' < r - p) ∧
    (F64.nan ∉ entries m.A n.toNat →
      SelInv n k 1 n m.A ∧
      ∃ m', dordstat fuel n k m = .ok m' ∧ m'.info = 0 ∧ SelInv n k k k m'.A ∧
        m'.kth = ent m'.A k ∧
        (∀ a, 1 ≤ a → a < k → F64.le (ent m'.A a) (ent m'.A k) = true) ∧
        (∀ b, k < b → b ≤ n → F64.le (ent m'.A k) (ent m'.A b) = true)) := by
  have hmax : max k 1 = k := max_eq_left hk1
  refine ⟨?_, ?_, ?_⟩
  · obtain ⟨m', e, h1, h2, _⟩ := dordstat_returns fuel n k m (by omega) (by omega) hkn hlen
      hfuel hdraw
    rw [hmax] at h2
    exact ⟨m', e, h1, h2⟩
  · intro p r A rnd hinv hpr hg hq
    have hinv' := hinv
    obtain ⟨i1, i2, i3, i4, i5, inum, _, _⟩ := hinv
    obtain ⟨j, A', e, c1, c2, s, c3⟩ := narrow_spec fuel k p r A rnd (by omega) (by omega)
      (by omega) hg hq
    refine ⟨_, _, A', _, e, ?_, by split <;> omega⟩
    have := SelInv_narrow n k p r j A A' (by rw [hmax]; exact hinv') c1 c2 s
      (c3 (fun t h1 h2 => inum t (by omega) (by omega)))
    rw [hmax] at this
    exact this
  · intro hnum
    obtain ⟨d, rfl⟩ : ∃ d : Nat, n = (d : Int) := ⟨n.toNat, by omega⟩
    simp only [Int.toNat_ofNat] at hnum
    have hnumIn := NumIn_of_entries m.A d (by omega) hnum
    refine ⟨⟨le_refl _, hk1, hkn, le_refl _, hlen, hnumIn, fun a b h1 h2 => by omega,
      fun a b h1 h2 h3 h4 => by omega⟩, ?_⟩
    obtain ⟨m', e, h1, h2, _, h4⟩ := dordstat_spec fuel d k m (by omega) (by omega) hkn hlen
      hfuel hnumIn hdraw
    rw [hmax] at h2 h4
    have h4' := h4
    obtain ⟨i1, i2, i3, i4, i5, _, i6, i7⟩ := h4
    exact ⟨m', e, h1, h4', h2, fun a ha1 ha2 => i6 a k ha1 ha2 (le_refl _) i4,
      fun b hb1 hb2 => i7 k b i1 (le_refl _) hb1 hb2⟩

/-- C19 (witness): `A[1..5] = [5,1,4,2,8]` and `k = 3` end with `A[3] = 4` in place. -/
theorem final_placement_witness :
    dordstat 6 5 3 ⟨[0, 5, 1, 4, 2, 8], 0, 0, 0⟩ = .ok ⟨[0, 1, 2, 4, 5, 8], 4, 0, 0⟩ ∧
    F64.nan ∉ entries [0, 5, 1, 4, 2, 8] (5 : Int).toNat ∧
    ∃ m', dordstat 6 5 3 ⟨[0, 5, 1, 4, 2, 8], 0, 0, 0⟩ = .ok m' ∧ m'.info = 0 ∧
      m'.kth = ent m'.A 3 ∧
      (∀ a, 1 ≤ a → a < 3 → F64.le (ent m'.A a) (ent m'.A 3) = true) ∧
      (∀ b, 3 < b → b ≤ 5 → F64.le (ent m'.A 3) (ent m'.A b) = true) := by
  obtain ⟨_, m', h1, h2, _, h3, h4, h5⟩ :=
    (final_placement 6 5 3 ⟨[0, 5, 1, 4, 2, 8], 0, 0, 0⟩
      (by decide) (by decide) (by decide) (by decide) (by decide)).2.2 (by decide)
  exact ⟨by decide, by decide, m', h1, h2, h3, h4, h5⟩

/-- C20 (as stated): the last part of the claim fails on the code when an entry is NaN.
With `n = 4`, `k = 0` and `A[1..4] = [NaN,1,2,3]` (nothing is drawn) the call returns
`kth = 2`, while the entry `1` of `A[1..4]` is less than 2. -/
theorem rank_zero_counterexample :
    pivotsInRange 5 4 0 ⟨[0, F64.nan, 1, 2, 3], 0, 0, 0⟩ = true ∧
    dordstat 5 4 0 ⟨[0, F64.nan, 1, 2, 3], 0, 0, 0⟩ = .ok ⟨[0, 2, 3, 1, F64.nan], 2, 0, 0⟩ ∧
    (1 : F64) ∈ entries [0, F64.nan, 1, 2, 3] 4 ∧
    F64.lt 1 2 = true ∧ F64.le 2 1 = false := by
  decide

/-- C20 (amended): for `n ≥ 1` the calls with `k = 0` and with `k = 1` have the same
outcome (same `kth`, `info`, final `A` and final `rnd`, or the same fault) for every
slice, budget and generator state, with `info = 0` whenever they return; when every drawn
pivot index lies in its range and no entry of `A[1..n]` is NaN, the value returned for
`k = 0` is the minimum of `A[1..n]`. -/
theorem rank_zero_as_rank_one (fuel : Nat) (n : Int) (m : Mem) (hn : 1 ≤ n) :
    dordstat fuel n 0 m = dordstat fuel n 1 m ∧
    (∀ m', dordstat fuel n 0 m = .ok m' → m'.info = 0) ∧
    (n < m.A.length → m.A.length ≤ fuel → pivotsInRange fuel n 0 m = true →
      F64.nan ∉ entries m.A n.toNat →
      ∃ m', dordstat fuel n 0 m = .ok m' ∧ m'.kth ∈ entries m.A n.toNat ∧
        ∀ v ∈ entries m.A n.toNat, F64.le m'.kth v = true) := by
  refine ⟨dordstat_rank01 fuel n m hn, ?_, ?_⟩
  · intro m' h
    unfold dordstat at h
    rw [if_neg (by omega)] at h
    exact l100_info _ _ _ _ _ _ _ h
  · intro hlen hfuel hdraw hnum
    obtain ⟨d, rfl⟩ : ∃ d : Nat, n = (d : Int) := ⟨n.toNat, by omega⟩
    simp only [Int.toNat_ofNat] at hnum ⊢
    obtain ⟨m', e, _, h2, h3, h4⟩ := dordstat_spec fuel d 0 m hn (le_refl _) (by omega) hlen
      hfuel (NumIn_of_entries m.A d (by omega) hnum) hdraw
    have hmax : max (0 : Int) 1 = 1 := by decide
    rw [hmax] at h2 h4
    have hlen' : d < m'.A.length := by rw [h3.1]; omega
    have hperm := entries_perm_of_shuffle m.A m'.A d h3
    obtain ⟨_, _, _, _, _, inum, _, i7⟩ := h4
    refine ⟨m', e, ?_, ?_⟩
    · rw [← hperm.mem_iff, List.mem_iff_getElem?]
      refine ⟨0, ?_⟩
      rw [entries_get m'.A d 0 (by omega) hlen', h2]
      rfl
    · intro v hv
      rw [← hperm.mem_iff] at hv
      obtain ⟨i, hi⟩ := List.mem_iff_getElem?.1 hv
      have hid : i < d := by
        by_contra hcon
        rw [List.getElem?_eq_none (by rw [entries_length m'.A d hlen']; omega)] at hi
        exact Option.noConfusion hi
      rw [entries_get m'.A d i hid hlen'] at hi
      rw [← Option.some.inj hi, h2]
      by_cases hi0 : i = 0
      · subst hi0
        exact F64.le_self (inum 1 (le_refl _) (by omega))
      · exact i7 1 _ (le_refl _) (le_refl _) (by omega) (by omega)

/-- C20 (witness): `A[1..5] = [5,1,4,2,8]` gives `kth = 1` for `k = 0` and for `k = 1`,
and 1 is the minimum. -/
theorem rank_zero_as_rank_one_witness :
    dordstat 6 5 0 ⟨[0, 5, 1, 4, 2, 8], 0, 0, 0⟩ = .ok ⟨[0, 1, 2, 4, 5, 8], 1, 0, 0⟩ ∧
    dordstat 6 5 0 ⟨[0, 5, 1, 4, 2, 8], 0, 0, 0⟩ = dordstat 6 5 1 ⟨[0, 5, 1, 4, 2, 8], 0, 0, 0⟩ ∧
    ∃ m', dordstat 6 5 0 ⟨[0, 5, 1, 4, 2, 8], 0, 0, 0⟩ = .ok m' ∧
      m'.kth ∈ entries [0, 5, 1, 4, 2, 8] (5 : Int).toNat ∧
      ∀ v ∈ entries [0, 5, 1, 4, 2, 8] (5 : Int).toNat, F64.le m'.kth v = true :=
  ⟨by decide, (rank_zero_as_rank_one 6 5 ⟨[0, 5, 1, 4, 2, 8], 0, 0, 0⟩ (by decide)).1,
    (rank_zero_as_rank_one 6 5 ⟨[0, 5, 1, 4, 2, 8], 0, 0, 0⟩ (by decide)).2.2
      (by decide) (by decide) (by decide) (by decide)⟩

end Lufact
